import Mathlib

/-!
Verification of the hybrid retrieval core of the docs-bot repository.

The Python sources are embedded shallowly:
  * `src/utils/hybrid_search.py` (class `BM25`, class `HybridSearchEngine`)
  * `src/utils/embeddings.py` (class `EmbeddingManager`, chunking)
  * `src/utils/answer_generator.py` (confidence and citation processing)

Modelling conventions:
  * Python floats are modelled as exact arithmetic: `ℚ`, or an arbitrary
    linear ordered field `K` where the BM25 idf needs a logarithm.  The
    logarithm `math.log` is kept abstract as a parameter `lg : ℚ → K`
    (its argument `(N - df + 0.5)/(df + 0.5) + 1` is always rational).
  * The tiktoken tokenizer behind `count_tokens` is an external library;
    it is kept abstract as a parameter `ct : String → ℕ`.
  * Python dicts are modelled either as functions (`String → Option _`)
    or as insertion-ordered association lists where iteration order
    matters (`chunk_scores` in reciprocal rank fusion).
  * Rational / field division in Lean is total with `x / 0 = 0`; wherever
    the Python code could divide by zero this is addressed explicitly in
    the corresponding theorem (the `avgdl` division in BM25 scoring).
-/

/-! ## Python string primitives

`str.split()` (whitespace split, empty fragments dropped), `str.lower()`
(ASCII case fold) and the substring test `needle in hay` are implemented
from scratch on `List Char` so that they are executable and provable.
-/

/-- One step of Python `str.split()`: split a character list on whitespace
runs, discarding empty fragments.  `cur` is the word accumulated so far
(in reverse). -/
def splitWsAux : List Char → List Char → List String
  | [], cur => if cur.isEmpty then [] else [String.mk cur.reverse]
  | c :: rest, cur =>
    if c.isWhitespace then
      if cur.isEmpty then splitWsAux rest []
      else String.mk cur.reverse :: splitWsAux rest []
    else splitWsAux rest (c :: cur)

/-- Python `s.split()`: whitespace-separated words of `s`. -/
def pyWords (s : String) : List String := splitWsAux s.data []

/-- Python `s.lower()` (ASCII case fold, as in Lean `Char.toLower`). -/
def pyLower (s : String) : String := String.mk (s.data.map Char.toLower)

/-- Does `pre` occur at the start of `l`? -/
def startsWithList : List Char → List Char → Bool
  | [], _ => true
  | _ :: _, [] => false
  | a :: as, b :: bs => a = b && startsWithList as bs

/-- Python `needle in hay` on character lists. -/
def containsList (needle : List Char) : List Char → Bool
  | [] => needle.isEmpty
  | c :: rest => startsWithList needle (c :: rest) || containsList needle rest

/-- Python `needle in hay` for strings. -/
def pyContains (needle hay : String) : Bool := containsList needle.data hay.data

/-! ## Stable sorting

Python `list.sort` / `sorted` are stable.  `sorted(key=f, reverse=True)`
is a stable sort placing larger keys first; `sort(key=f)` places smaller
keys first.  Both are modelled as insertion sorts that are stable by
construction: a newly inserted element (originally earlier in the list)
is placed before the first element it does not have to follow.
-/

section StableSort

variable {α : Type} {β : Type} [LinearOrder β]

/-- Insert `x` (originally before everything in the list) into a
descending-sorted list: `x` goes before the first element whose key is
`≤` its own, so among equal keys the original order survives. -/
def insertDesc (f : α → β) (x : α) : List α → List α
  | [] => [x]
  | y :: ys => if f y ≤ f x then x :: y :: ys else y :: insertDesc f x ys

/-- Stable sort by key, descending: Python `sorted(l, key=f, reverse=True)`. -/
def sortDesc (f : α → β) : List α → List α
  | [] => []
  | x :: xs => insertDesc f x (sortDesc f xs)

/-- Insert `x` (originally before everything in the list) into an
ascending-sorted list. -/
def insertAsc (f : α → β) (x : α) : List α → List α
  | [] => [x]
  | y :: ys => if f x ≤ f y then x :: y :: ys else y :: insertAsc f x ys

/-- Stable sort by key, ascending: Python `l.sort(key=f)`. -/
def sortAsc (f : α → β) : List α → List α
  | [] => []
  | x :: xs => insertAsc f x (sortAsc f xs)

theorem insertDesc_perm (f : α → β) (x : α) (l : List α) :
    List.Perm (insertDesc f x l) (x :: l) := by
  induction l with
  | nil => simp [insertDesc]
  | cons y ys ih =>
    simp only [insertDesc]
    split
    · exact List.Perm.refl _
    · exact (List.Perm.cons y ih).trans (List.Perm.swap x y ys)

theorem sortDesc_perm (f : α → β) (l : List α) : List.Perm (sortDesc f l) l := by
  induction l with
  | nil => exact List.Perm.refl _
  | cons x xs ih =>
    exact (insertDesc_perm f x (sortDesc f xs)).trans (List.Perm.cons x ih)

theorem insertAsc_perm (f : α → β) (x : α) (l : List α) :
    List.Perm (insertAsc f x l) (x :: l) := by
  induction l with
  | nil => simp [insertAsc]
  | cons y ys ih =>
    simp only [insertAsc]
    split
    · exact List.Perm.refl _
    · exact (List.Perm.cons y ih).trans (List.Perm.swap x y ys)

theorem sortAsc_perm (f : α → β) (l : List α) : List.Perm (sortAsc f l) l := by
  induction l with
  | nil => exact List.Perm.refl _
  | cons x xs ih =>
    exact (insertAsc_perm f x (sortAsc f xs)).trans (List.Perm.cons x ih)

/-- The output of `sortDesc` is weakly descending in the key. -/
theorem sortDesc_pairwise_ge (f : α → β) (l : List α) :
    (sortDesc f l).Pairwise (fun a b => f b ≤ f a) := by
  induction l with
  | nil => simp [sortDesc]
  | cons x xs ih =>
    simp only [sortDesc]
    revert ih
    generalize sortDesc f xs = s
    intro hs
    induction s with
    | nil => simp [insertDesc]
    | cons y ys ihy =>
      rcases List.pairwise_cons.mp hs with ⟨hy, hys⟩
      by_cases h : f y ≤ f x
      · simp only [insertDesc, if_pos h]
        refine List.pairwise_cons.mpr ⟨?_, hs⟩
        intro b hb
        rcases List.mem_cons.mp hb with rfl | hb
        · exact h
        · exact le_trans (hy b hb) h
      · simp only [insertDesc, if_neg h]
        refine List.pairwise_cons.mpr ⟨?_, ihy hys⟩
        intro b hb
        have hmem := (insertDesc_perm f x ys).mem_iff.mp hb
        rcases List.mem_cons.mp hmem with rfl | hb2
        · exact le_of_not_le h
        · exact hy b hb2

/-- Stability of `sortDesc`: whatever pairwise relation held between the
input elements still relates any two output elements whose keys do not
strictly separate them. -/
theorem sortDesc_pairwise_stable (f : α → β) {S : α → α → Prop}
    {l : List α} (h : l.Pairwise S) :
    (sortDesc f l).Pairwise (fun a b => f b < f a ∨ S a b) := by
  induction l with
  | nil => simp [sortDesc]
  | cons x xs ih =>
    rcases List.pairwise_cons.mp h with ⟨hx, hxs⟩
    have hsorted := ih hxs
    have hxall : ∀ b ∈ sortDesc f xs, S x b := by
      intro b hb
      exact hx b ((sortDesc_perm f xs).mem_iff.mp hb)
    simp only [sortDesc]
    revert hsorted hxall
    generalize sortDesc f xs = s
    intro hs hxall
    induction s with
    | nil => simp [insertDesc]
    | cons y ys ihy =>
      rcases List.pairwise_cons.mp hs with ⟨hy, hys⟩
      by_cases hc : f y ≤ f x
      · simp only [insertDesc, if_pos hc]
        refine List.pairwise_cons.mpr ⟨?_, hs⟩
        intro b hb
        rcases List.mem_cons.mp hb with rfl | hb
        · exact Or.inr (hxall b (List.mem_cons_self _ _))
        · exact Or.inr (hxall b (List.mem_cons_of_mem _ hb))
      · simp only [insertDesc, if_neg hc]
        refine List.pairwise_cons.mpr ⟨?_, ?_⟩
        · intro b hb
          have hmem := (insertDesc_perm f x ys).mem_iff.mp hb
          rcases List.mem_cons.mp hmem with rfl | hb2
          · exact Or.inl (lt_of_not_le hc)
          · exact hy b hb2
        · exact ihy hys (fun b hb => hxall b (List.mem_cons_of_mem _ hb))

/-- A list already weakly descending in the key is left unchanged. -/
theorem sortDesc_eq_self (f : α → β) {l : List α}
    (h : l.Pairwise (fun a b => f b ≤ f a)) : sortDesc f l = l := by
  induction l with
  | nil => rfl
  | cons x xs ih =>
    rcases List.pairwise_cons.mp h with ⟨hx, hxs⟩
    simp only [sortDesc, ih hxs]
    cases xs with
    | nil => rfl
    | cons y ys =>
      simp only [insertDesc, if_pos (hx y (List.mem_cons_self _ _))]

/-- The output of `sortAsc` is weakly ascending in the key. -/
theorem sortAsc_pairwise_le (f : α → β) (l : List α) :
    (sortAsc f l).Pairwise (fun a b => f a ≤ f b) := by
  induction l with
  | nil => simp [sortAsc]
  | cons x xs ih =>
    simp only [sortAsc]
    revert ih
    generalize sortAsc f xs = s
    intro hs
    induction s with
    | nil => simp [insertAsc]
    | cons y ys ihy =>
      rcases List.pairwise_cons.mp hs with ⟨hy, hys⟩
      by_cases h : f x ≤ f y
      · simp only [insertAsc, if_pos h]
        refine List.pairwise_cons.mpr ⟨?_, hs⟩
        intro b hb
        rcases List.mem_cons.mp hb with rfl | hb
        · exact h
        · exact le_trans h (hy b hb)
      · simp only [insertAsc, if_neg h]
        refine List.pairwise_cons.mpr ⟨?_, ihy hys⟩
        intro b hb
        have hmem := (insertAsc_perm f x ys).mem_iff.mp hb
        rcases List.mem_cons.mp hmem with rfl | hb2
        · exact le_of_not_le h
        · exact hy b hb2

end StableSort

/-- `insertDesc` does not look past elements whose keys already force the
inserted element in front of them. -/
theorem insertDesc_append {α β : Type} [LinearOrder β] (f : α → β) (x : α)
    (A B : List α) (hB : ∀ b ∈ B, f b ≤ f x) :
    insertDesc f x (A ++ B) = insertDesc f x A ++ B := by
  induction A with
  | nil =>
    cases B with
    | nil => rfl
    | cons b bs =>
      show insertDesc f x (b :: bs) = [x] ++ b :: bs
      simp only [insertDesc, if_pos (hB b (List.mem_cons_self _ _)),
        List.singleton_append]
  | cons a as ih =>
    simp only [List.cons_append, insertDesc]
    by_cases h : f a ≤ f x
    · simp [h]
    · simp [h, ih]

/-- `insertDesc` lands exactly between a block of strictly larger keys and
a block of keys that are `≤` the inserted one. -/
theorem insertDesc_between {α β : Type} [LinearOrder β] (f : α → β) (x : α)
    (A B : List α) (hA : ∀ a ∈ A, ¬ f a ≤ f x) (hB : ∀ b ∈ B, f b ≤ f x) :
    insertDesc f x (A ++ B) = A ++ x :: B := by
  induction A with
  | nil =>
    cases B with
    | nil => rfl
    | cons b bs =>
      show insertDesc f x (b :: bs) = [] ++ x :: b :: bs
      simp only [insertDesc, if_pos (hB b (List.mem_cons_self _ _)),
        List.nil_append]
  | cons a as ih =>
    have hstep : insertDesc f x (a :: (as ++ B)) =
        a :: insertDesc f x (as ++ B) := by
      simp only [insertDesc, if_neg (hA a (List.mem_cons_self _ _))]
    rw [List.cons_append, hstep,
      ih (fun c hc => hA c (List.mem_cons_of_mem _ hc)), List.cons_append]

/-- Sorting a list whose keys are all `≥ z` splits it into the
strictly-above-`z` part (sorted) followed by the at-`z` part in original
order. -/
theorem sortDesc_split_at {α β : Type} [LinearOrder β] (f : α → β) (z : β)
    (l : List α) (h : ∀ a ∈ l, z ≤ f a) :
    sortDesc f l =
      sortDesc f (l.filter fun a => decide (z < f a)) ++
        (l.filter fun a => decide (f a ≤ z)) := by
  induction l with
  | nil => rfl
  | cons x xs ih =>
    have hxz : z ≤ f x := h x (List.mem_cons_self _ _)
    have ihs := ih (fun a ha => h a (List.mem_cons_of_mem _ ha))
    have hposmem : ∀ a ∈ xs.filter (fun a => decide (z < f a)), ¬ f a ≤ z := by
      intro a ha
      have := (List.mem_filter.mp ha).2
      simp only [decide_eq_true_eq] at this
      exact not_le_of_lt this
    have hzmem : ∀ b ∈ xs.filter (fun a => decide (f a ≤ z)), f b ≤ z := by
      intro b hb
      have := (List.mem_filter.mp hb).2
      simpa using this
    by_cases hx : f x ≤ z
    · have hxeq : f x = z := le_antisymm hx hxz
      have hnot : ¬ z < f x := not_lt_of_le hx
      simp only [sortDesc, ihs, List.filter_cons]
      simp only [decide_eq_true_eq, hnot, hx, if_false, if_true, decide_False,
        decide_True]
      refine insertDesc_between f x _ _ ?_ ?_
      · intro a ha
        have hmem := (sortDesc_perm _ _).mem_iff.mp ha
        intro hle
        exact hposmem a hmem (hle.trans hx)
      · intro b hb
        exact (hzmem b hb).trans (le_of_eq hxeq.symm)
    · have hxpos : z < f x := lt_of_not_le hx
      simp only [sortDesc, ihs, List.filter_cons]
      simp only [decide_eq_true_eq, hxpos, hx, if_true, if_false, decide_False,
        decide_True]
      rw [insertDesc_append f x _ _ ?_]
      · simp [sortDesc]
      · intro b hb
        exact (hzmem b hb).trans (le_of_lt hxpos)

/-- Inserting two elements with distinct keys commutes. -/
theorem insertDesc_comm {α β : Type} [LinearOrder β] (f : α → β) (x y : α)
    (hxy : f x ≠ f y) (s : List α) :
    insertDesc f x (insertDesc f y s) = insertDesc f y (insertDesc f x s) := by
  induction s with
  | nil =>
    rcases lt_or_gt_of_ne hxy with hlt | hgt
    · simp only [insertDesc, if_neg (not_le_of_lt hlt), if_pos (le_of_lt hlt)]
    · simp only [insertDesc, if_pos (le_of_lt hgt), if_neg (not_le_of_lt hgt)]
  | cons z zs ih =>
    by_cases hzx : f z ≤ f x <;> by_cases hzy : f z ≤ f y
    · rcases lt_or_gt_of_ne hxy with hlt | hgt
      · simp only [insertDesc, if_pos hzx, if_pos hzy,
          if_neg (not_le_of_lt hlt), if_pos (le_of_lt hlt), if_pos hzx]
      · simp only [insertDesc, if_pos hzx, if_pos hzy,
          if_pos (le_of_lt hgt), if_neg (not_le_of_lt hgt), if_pos hzy]
    · have hyx : f y ≤ f x := le_trans (le_of_not_le hzy) hzx
      have hnyx : ¬ f x ≤ f y := fun h => hxy (le_antisymm h hyx)
      simp only [insertDesc, if_pos hzx, if_neg hzy, if_pos hyx, if_pos hzx,
        if_neg hnyx]
    · have hxy2 : f x ≤ f y := le_trans (le_of_not_le hzx) hzy
      have hnxy : ¬ f y ≤ f x := fun h => hxy (le_antisymm hxy2 h)
      simp only [insertDesc, if_neg hzx, if_pos hzy, if_pos hxy2, if_pos hzy,
        if_neg hnxy]
    · simp only [insertDesc, if_neg hzx, if_neg hzy, ih]

/-- With pairwise-distinct keys, `sortDesc` is invariant under
permutation of its input. -/
theorem sortDesc_perm_congr {α β : Type} [LinearOrder β] (f : α → β)
    {l m : List α} (hp : List.Perm l m)
    (hl : l.Pairwise (fun a b => f a ≠ f b)) :
    sortDesc f l = sortDesc f m := by
  induction hp with
  | nil => rfl
  | cons x p ih =>
    rcases List.pairwise_cons.mp hl with ⟨_, htail⟩
    simp only [sortDesc, ih htail]
  | swap x y t =>
    rcases List.pairwise_cons.mp hl with ⟨hy, _⟩
    have hne : f y ≠ f x := hy x (List.mem_cons_self _ _)
    simp only [sortDesc]
    exact insertDesc_comm f y x hne (sortDesc f t)
  | trans p1 p2 ih1 ih2 =>
    have hsymm : Symmetric (fun a b : α => f a ≠ f b) := fun a b h => Ne.symm h
    have hm := (p1.pairwise_iff @hsymm).mp hl
    exact (ih1 hl).trans (ih2 hm)

/-! ## BM25 (src/utils/hybrid_search.py, class `BM25`)

The class state is a record; `k1`, `b`, the idf values and scores live
in an arbitrary linear ordered field `K`, and `math.log` is the abstract
parameter `lg : ℚ → K` of `bm25Fit` (the argument passed to the
logarithm is always exact rational arithmetic).  The `self.idf` dict is
modelled as a function `String → Option K` (`none` = key absent);
`fit` updates it in place and never clears it, exactly as the source
does.
-/

structure BM25State (K : Type) where
  k1 : K
  b : K
  documents : List String
  doc_len : List ℕ
  idf : String → Option K
  avgdl : K

/-- `BM25.__init__(k1=1.5, b=0.75)`: empty index, default parameters. -/
def bm25Init (K : Type) [LinearOrderedField K] : BM25State K :=
  { k1 := 3 / 2, b := 3 / 4, documents := [], doc_len := [],
    idf := fun _ => none, avgdl := 0 }

/-- Document frequency: the `df` dict of `BM25.fit` maps each word to the
number of documents whose word set (`set(doc.lower().split())`) contains
it. -/
def docFreq (documents : List String) (w : String) : ℕ :=
  documents.countP (fun doc => (pyWords (pyLower doc)).contains w)

/-- The idf value `math.log((N - freq + 0.5) / (freq + 0.5) + 1.0)`
written by `BM25.fit` for a word of document frequency `freq`. -/
def idfValue {K : Type} [LinearOrderedField K] (lg : ℚ → K) (N freq : ℕ) : K :=
  lg (((N : ℚ) - (freq : ℚ) + 1 / 2) / ((freq : ℚ) + 1 / 2) + 1)

/-- `BM25.fit(documents)` (hybrid_search.py lines 28-44).  Every word
with positive document frequency gets a fresh idf entry; all other keys
of the idf dict are left untouched (stale entries from earlier fits
survive). -/
def bm25Fit {K : Type} [LinearOrderedField K] (lg : ℚ → K)
    (st : BM25State K) (documents : List String) : BM25State K :=
  let doc_len := documents.map (fun doc => (pyWords doc).length)
  let avgdl : K :=
    if doc_len.isEmpty then 0 else (doc_len.sum : K) / (doc_len.length : K)
  let N := documents.length
  { st with
    documents := documents
    doc_len := doc_len
    avgdl := avgdl
    idf := fun w =>
      if 0 < docFreq documents w then some (idfValue lg N (docFreq documents w))
      else st.idf w }

/-- `BM25.score(query, doc_idx)` (hybrid_search.py lines 46-68).
Each query word present in the document (`word in doc_word_count`)
contributes `idf * (freq * (k1 + 1)) / (freq + k1 * (1 - b + b *
doc_len / avgdl))`; absent words contribute nothing.  Division is the
total field division of `K` (`x / 0 = 0`); the guard means the `avgdl`
division is only evaluated for documents that contain at least one
word. -/
def bm25Score {K : Type} [LinearOrderedField K]
    (st : BM25State K) (query : String) (doc_idx : ℕ) : K :=
  if st.documents.length ≤ doc_idx then 0
  else
    let doc := st.documents.getD doc_idx ""
    let doc_words := pyWords (pyLower doc)
    let query_words := pyWords (pyLower query)
    query_words.foldl
      (fun score word =>
        if 0 < doc_words.count word then
          score + ((st.idf word).getD 0) *
            ((doc_words.count word : K) * (st.k1 + 1)) /
            ((doc_words.count word : K) +
              st.k1 * (1 - st.b + st.b * (st.doc_len.getD doc_idx 0 : K) / st.avgdl))
        else score)
      0

/-- `BM25.search(query, top_k)` (hybrid_search.py lines 70-79): score
every document in index order, sort stably by score descending, truncate
to `top_k`. -/
def bm25Search {K : Type} [LinearOrderedField K]
    (st : BM25State K) (query : String) (top_k : ℕ) : List (ℕ × K) :=
  let scores := (List.range st.documents.length).map
    (fun i => (i, bm25Score st query i))
  (sortDesc (fun p => p.2) scores).take top_k

/-- The BM25 scoring formula exactly as the specification states it
(spec section 4.2): `avgdl` is the mean token length of the fitted
documents, `df(t)` the document frequency, `k1 = 1.5`, `b = 0.75`, and
the per-term contribution is
`idf(t) * freq(t,d) * (k1+1) / (freq(t,d) + k1 * (1 - b + b * |d| / avgdl))`,
summed over query terms present in the document, with terms absent from
the document contributing zero. -/
def specBM25Score {K : Type} [LinearOrderedField K] (lg : ℚ → K)
    (documents : List String) (query : String) (d : ℕ) : K :=
  let N := documents.length
  let avgdl : K :=
    ((documents.map (fun doc => (pyWords doc).length)).sum : K) / (N : K)
  let doc_words := pyWords (pyLower (documents.getD d ""))
  ((pyWords (pyLower query)).map
    (fun t =>
      if 0 < doc_words.count t then
        idfValue lg N (docFreq documents t) * (doc_words.count t : K) *
          (3 / 2 + 1) /
          ((doc_words.count t : K) +
            3 / 2 * (1 - 3 / 4 +
              3 / 4 * ((pyWords (documents.getD d "")).length : K) / avgdl))
      else 0)).sum

/-! ### Helper lemmas about the embedding -/

theorem foldl_ext {α β : Type} (f g : β → α → β) (b : β) (l : List α)
    (h : ∀ acc a, a ∈ l → f acc a = g acc a) : l.foldl f b = l.foldl g b := by
  induction l generalizing b with
  | nil => rfl
  | cons x xs ih =>
    simp only [List.foldl_cons, h b x (List.mem_cons_self _ _)]
    exact ih _ (fun acc a ha => h acc a (List.mem_cons_of_mem _ ha))

theorem foldl_add_eq_sum {α K : Type} [AddCommMonoid K] (g : α → K)
    (l : List α) (c : K) :
    l.foldl (fun acc a => acc + g a) c = c + (l.map g).sum := by
  induction l generalizing c with
  | nil => simp
  | cons x xs ih =>
    simp only [List.foldl_cons, List.map_cons, List.sum_cons, ih (c + g x)]
    rw [add_assoc]

/-- A word occurring in a fitted document has positive document
frequency there. -/
theorem docFreq_pos_of_count_pos {documents : List String} {d : ℕ}
    (hd : d < documents.length) {w : String}
    (hw : 0 < (pyWords (pyLower (documents.getD d ""))).count w) :
    0 < docFreq documents w := by
  have hmem : w ∈ pyWords (pyLower (documents.getD d "")) :=
    List.count_pos_iff.mp hw
  refine List.countP_pos_iff.mpr ?_
  refine ⟨documents.getD d "", ?_, ?_⟩
  · rw [List.getD_eq_getElem documents "" hd]
    exact List.getElem_mem hd
  · exact List.elem_iff.mpr hmem

/-- After `fit`, every word with positive document frequency reads back
the freshly written idf value, regardless of the previous idf table. -/
theorem bm25Fit_idf_of_pos {K : Type} [LinearOrderedField K] (lg : ℚ → K)
    (st : BM25State K) (documents : List String) {w : String}
    (hw : 0 < docFreq documents w) :
    (bm25Fit lg st documents).idf w =
      some (idfValue lg documents.length (docFreq documents w)) := by
  simp [bm25Fit, hw]

theorem foldl_id {α β : Type} (b : β) (l : List α) :
    l.foldl (fun acc _ => acc) b = b := by
  induction l with
  | nil => rfl
  | cons x xs ih => exact ih

/-- A document whose (lower-cased) word list contains no query word
scores zero. -/
theorem bm25Score_eq_zero_of_no_terms {K : Type} [LinearOrderedField K]
    {st : BM25State K} {query : String} {i : ℕ}
    (h : ∀ w ∈ pyWords (pyLower query),
      (pyWords (pyLower (st.documents.getD i ""))).count w = 0) :
    bm25Score st query i = 0 := by
  unfold bm25Score
  split
  · rfl
  · rw [foldl_ext _ (fun acc _ => acc) 0 _ ?_, foldl_id]
    intro acc w hw
    rw [if_neg]
    rw [h w hw]
    exact lt_irrefl 0

/-- The fitted `doc_len` entry of a valid index is the whitespace word
count of that document. -/
theorem bm25Fit_doc_len_getD {K : Type} [LinearOrderedField K] (lg : ℚ → K)
    (st : BM25State K) (documents : List String) {d : ℕ}
    (hd : d < documents.length) :
    (bm25Fit lg st documents).doc_len.getD d 0 =
      (pyWords (documents.getD d "")).length := by
  show (documents.map (fun doc => (pyWords doc).length)).getD d 0 =
    (pyWords (documents.getD d "")).length
  rw [List.getD_eq_getElem _ _ (by simpa using hd), List.getElem_map,
    List.getD_eq_getElem _ _ hd]

/-- `fit` computes `avgdl` as total tokens over document count. -/
theorem bm25Fit_avgdl {K : Type} [LinearOrderedField K] (lg : ℚ → K)
    (st : BM25State K) (documents : List String)
    (hne : documents ≠ []) :
    (bm25Fit lg st documents).avgdl =
      ((documents.map (fun doc => (pyWords doc).length)).sum : K) /
        (documents.length : K) := by
  show (if (documents.map (fun doc => (pyWords doc).length)).isEmpty then (0:K)
    else _) = _
  rw [if_neg (by simpa using hne)]
  simp

/-- `BM25.score` over a freshly fitted index computes exactly the
specification formula. -/
theorem bm25Score_fit_eq_spec {K : Type} [LinearOrderedField K] (lg : ℚ → K)
    (documents : List String) (query : String) {d : ℕ}
    (hd : d < documents.length) :
    bm25Score (bm25Fit lg (bm25Init K) documents) query d =
      specBM25Score lg documents query d := by
  have hne : documents ≠ [] := by
    intro h
    rw [h] at hd
    exact Nat.not_lt_zero d hd
  unfold bm25Score
  rw [if_neg (not_le_of_lt (show d < (bm25Fit lg (bm25Init K) documents).documents.length from hd))]
  rw [foldl_ext _
    (fun acc w =>
      acc + (if 0 < (pyWords (pyLower ((bm25Fit lg (bm25Init K) documents).documents.getD d ""))).count w then
        (((bm25Fit lg (bm25Init K) documents).idf w).getD 0) *
          (((pyWords (pyLower ((bm25Fit lg (bm25Init K) documents).documents.getD d ""))).count w : K) * ((bm25Fit lg (bm25Init K) documents).k1 + 1)) /
          (((pyWords (pyLower ((bm25Fit lg (bm25Init K) documents).documents.getD d ""))).count w : K) +
            (bm25Fit lg (bm25Init K) documents).k1 * (1 - (bm25Fit lg (bm25Init K) documents).b + (bm25Fit lg (bm25Init K) documents).b * ((bm25Fit lg (bm25Init K) documents).doc_len.getD d 0 : K) / (bm25Fit lg (bm25Init K) documents).avgdl))
      else 0)) 0 _ ?_]
  · rw [foldl_add_eq_sum, zero_add]
    unfold specBM25Score
    refine congrArg List.sum (List.map_congr_left ?_)
    intro w hw
    by_cases hc : 0 < (pyWords (pyLower (documents.getD d ""))).count w
    · have hdocs : (bm25Fit lg (bm25Init K) documents).documents = documents := rfl
      rw [hdocs, if_pos hc, if_pos hc]
      have hdf := docFreq_pos_of_count_pos hd hc
      rw [bm25Fit_idf_of_pos lg _ _ hdf]
      have hk1 : (bm25Fit lg (bm25Init K) documents).k1 = 3 / 2 := rfl
      have hb : (bm25Fit lg (bm25Init K) documents).b = 3 / 4 := rfl
      rw [hk1, hb, bm25Fit_doc_len_getD lg _ _ hd, bm25Fit_avgdl lg _ _ hne,
        Option.getD_some]
      rw [mul_assoc]
    · have hdocs : (bm25Fit lg (bm25Init K) documents).documents = documents := rfl
      rw [hdocs, if_neg hc, if_neg hc]
  · intro acc w _
    by_cases hc : 0 < (pyWords (pyLower ((bm25Fit lg (bm25Init K) documents).documents.getD d ""))).count w
    · simp only [if_pos hc]
    · simp only [if_neg hc, add_zero]

/-! ### Whitespace-only documents (the `avgdl = 0` edge case) -/

theorem splitWsAux_ne_nil {cur : List Char} (hcur : cur ≠ []) :
    ∀ l : List Char, splitWsAux l cur ≠ [] := by
  intro l
  induction l generalizing cur with
  | nil =>
    simp only [splitWsAux, List.isEmpty_eq_true]
    rw [if_neg hcur]
    exact List.cons_ne_nil _ _
  | cons c rest ih =>
    simp only [splitWsAux, List.isEmpty_eq_true]
    by_cases hws : c.isWhitespace
    · rw [if_pos hws, if_neg hcur]
      exact List.cons_ne_nil _ _
    · rw [if_neg hws]
      exact ih (List.cons_ne_nil _ _)

/-- An empty split means every character was whitespace. -/
theorem all_whitespace_of_splitWsAux_nil :
    ∀ l : List Char, splitWsAux l [] = [] → ∀ c ∈ l, c.isWhitespace := by
  intro l
  induction l with
  | nil => intro _ c hc; cases hc
  | cons c rest ih =>
    intro h a ha
    by_cases hws : c.isWhitespace
    · simp only [splitWsAux, List.isEmpty_eq_true, if_pos hws, if_pos rfl] at h
      rcases List.mem_cons.mp ha with rfl | ha2
      · exact hws
      · exact ih h a ha2
    · exfalso
      simp only [splitWsAux, List.isEmpty_eq_true, if_neg hws] at h
      exact splitWsAux_ne_nil (List.cons_ne_nil _ _) rest h

theorem toLower_of_whitespace {c : Char} (h : c.isWhitespace) :
    c.toLower = c := by
  have h4 : c = ' ' ∨ c = '\t' ∨ c = '\r' ∨ c = '\n' := by
    simpa [Char.isWhitespace, or_assoc] using h
  rcases h4 with rfl | rfl | rfl | rfl <;> decide

/-- Lower-casing a whitespace-only string is the identity, hence a
document with no words also has no lower-cased words. -/
theorem pyWords_pyLower_of_nil {s : String} (h : pyWords s = []) :
    pyWords (pyLower s) = [] := by
  have hws : ∀ c ∈ s.data, c.isWhitespace :=
    all_whitespace_of_splitWsAux_nil s.data h
  have hmap : s.data.map Char.toLower = s.data := by
    rw [List.map_congr_left (fun c hc => toLower_of_whitespace (hws c hc))]
    exact List.map_id _
  show splitWsAux (String.mk (s.data.map Char.toLower)).data [] = []
  rw [show (String.mk (s.data.map Char.toLower)).data = s.data.map Char.toLower
    from rfl, hmap]
  exact h

/-- If `fit` produced `avgdl = 0` then every fitted document splits into
no words at all, even after lower-casing. -/
theorem bm25Fit_avgdl_zero_no_words {K : Type} [LinearOrderedField K]
    (lg : ℚ → K) (st : BM25State K) (documents : List String) (i : ℕ)
    (h0 : (bm25Fit lg st documents).avgdl = 0) :
    pyWords (pyLower (documents.getD i "")) = [] := by
  by_cases hle : documents.length ≤ i
  · rw [List.getD_eq_default _ _ hle]
    rfl
  · have hi : i < documents.length := lt_of_not_le hle
    have hne : documents ≠ [] := by
      intro h
      rw [h] at hi
      exact Nat.not_lt_zero i hi
    have hsum :
        ((documents.map (fun doc => (pyWords doc).length)).sum : K) /
          ((documents.map (fun doc => (pyWords doc).length)).length : K) = 0 := by
      have : (bm25Fit lg st documents).avgdl =
          ((documents.map (fun doc => (pyWords doc).length)).sum : K) /
            ((documents.map (fun doc => (pyWords doc).length)).length : K) := by
        show (if (documents.map (fun doc => (pyWords doc).length)).isEmpty
          then (0:K) else _) = _
        rw [if_neg (by simpa using hne)]
      rw [← this, h0]
    have hlen : ((documents.map (fun doc => (pyWords doc).length)).length : K) ≠ 0 := by
      rw [List.length_map]
      exact Nat.cast_ne_zero.mpr (fun h => hne (List.length_eq_zero.mp h))
    have hsz : (documents.map (fun doc => (pyWords doc).length)).sum = 0 := by
      rcases div_eq_zero_iff.mp hsum with h | h
      · exact_mod_cast h
      · exact absurd h hlen
    have hall := List.sum_eq_zero_iff.mp hsz
    have hdoc : (pyWords (documents.getD i "")).length = 0 := by
      refine hall _ ?_
      rw [List.getD_eq_getElem _ _ hi]
      exact List.mem_map_of_mem _ (List.getElem_mem hi)
    exact pyWords_pyLower_of_nil (List.length_eq_zero.mp hdoc)

/-- C1: for a freshly fitted corpus, `BM25.score` equals the
specification formula (idf, `k1 = 1.5`, `b = 0.75`, `avgdl` the mean
token length), with query terms absent from the document contributing
zero, so a document containing no query terms scores exactly 0. -/
theorem claim_C1_bm25_score_formula {K : Type} [LinearOrderedField K]
    (lg : ℚ → K) (documents : List String) (query : String) (d : ℕ)
    (hd : d < documents.length) :
    bm25Score (bm25Fit lg (bm25Init K) documents) query d =
      specBM25Score lg documents query d ∧
    ((∀ w ∈ pyWords (pyLower query),
        (pyWords (pyLower (documents.getD d ""))).count w = 0) →
      bm25Score (bm25Fit lg (bm25Init K) documents) query d = 0) := by
  refine ⟨bm25Score_fit_eq_spec lg documents query hd, fun h => ?_⟩
  exact bm25Score_eq_zero_of_no_terms h

/-- Witness for C1: a two-document corpus, evaluated concretely; the
second application is to a query with no terms in the document. -/
theorem claim_C1_bm25_score_formula_witness :
    ((0:ℕ) < 2 ∧
      bm25Score (bm25Fit id (bm25Init ℚ) ["apple banana", "banana"]) "Banana" 0 =
        specBM25Score id ["apple banana", "banana"] "Banana" 0) ∧
    bm25Score (bm25Fit id (bm25Init ℚ) ["apple banana", "banana"]) "cherry" 0 = 0 :=
  ⟨⟨by decide,
    (claim_C1_bm25_score_formula id ["apple banana", "banana"] "Banana" 0
      (by decide)).1⟩,
   (claim_C1_bm25_score_formula id ["apple banana", "banana"] "cherry" 0
      (by decide)).2 (by decide)⟩

/-- `BM25.search` over any index state: bounded length, scores weakly
descending, ties in ascending document order (Python `sort` is stable
and the unsorted list is in index order). -/
theorem bm25Search_sorted {K : Type} [LinearOrderedField K]
    (st : BM25State K) (query : String) (top_k : ℕ) :
    (bm25Search st query top_k).length ≤ top_k ∧
    (bm25Search st query top_k).Pairwise
      (fun a b => b.2 ≤ a.2 ∧ (b.2 < a.2 ∨ (a.2 = b.2 ∧ a.1 < b.1))) := by
  constructor
  · simp [bm25Search, List.length_take]
  · have hin : ((List.range st.documents.length).map
        (fun i => (i, bm25Score st query i))).Pairwise
        (fun a b : ℕ × K => a.1 < b.1) :=
      (List.pairwise_lt_range _).map _ (fun a b h => by simpa using h)
    have hstable := sortDesc_pairwise_stable (fun p : ℕ × K => p.2) hin
    have hge := sortDesc_pairwise_ge (fun p : ℕ × K => p.2)
      ((List.range st.documents.length).map (fun i => (i, bm25Score st query i)))
    have hcomb : (sortDesc (fun p : ℕ × K => p.2)
        ((List.range st.documents.length).map
          (fun i => (i, bm25Score st query i)))).Pairwise
        (fun a b => b.2 ≤ a.2 ∧ (b.2 < a.2 ∨ (a.2 = b.2 ∧ a.1 < b.1))) := by
      refine (hge.and hstable).imp ?_
      intro a b h
      rcases h with ⟨hle, hlt | hidx⟩
      · exact ⟨hle, Or.inl hlt⟩
      · rcases lt_or_eq_of_le hle with hlt | heq
        · exact ⟨hle, Or.inl hlt⟩
        · exact ⟨hle, Or.inr ⟨heq.symm, hidx⟩⟩
    exact hcomb.sublist (List.take_sublist _ _)

/-- C8: for every fitted corpus, query and `top_k`, `BM25.search`
returns at most `top_k` `(doc_index, score)` pairs, sorted by score
descending, with equal scores ordered by ascending original document
index (stable tie-break). -/
theorem claim_C8_bm25_search_order {K : Type} [LinearOrderedField K]
    (lg : ℚ → K) (st0 : BM25State K) (documents : List String)
    (query : String) (top_k : ℕ) :
    (bm25Search (bm25Fit lg st0 documents) query top_k).length ≤ top_k ∧
    (bm25Search (bm25Fit lg st0 documents) query top_k).Pairwise
      (fun a b => b.2 ≤ a.2 ∧ (b.2 < a.2 ∨ (a.2 = b.2 ∧ a.1 < b.1))) :=
  bm25Search_sorted _ query top_k

/-- C9: when the fitted corpus makes `avgdl = 0` (no documents, or only
wordless documents), every per-term guard fails — the branch containing
the division by `avgdl` is never entered — every score is 0, and
`search` returns the documents in index order with score 0. -/
theorem claim_C9_bm25_avgdl_zero {K : Type} [LinearOrderedField K]
    (lg : ℚ → K) (st0 : BM25State K) (documents : List String)
    (query : String) (i top_k : ℕ)
    (h0 : (bm25Fit lg st0 documents).avgdl = 0) :
    (∀ w ∈ pyWords (pyLower query),
      (pyWords (pyLower ((bm25Fit lg st0 documents).documents.getD i ""))).count w
        = 0) ∧
    bm25Score (bm25Fit lg st0 documents) query i = 0 ∧
    bm25Search (bm25Fit lg st0 documents) query top_k =
      ((List.range documents.length).map (fun j => (j, (0 : K)))).take top_k := by
  have hnw : ∀ j, pyWords (pyLower (documents.getD j "")) = [] :=
    fun j => bm25Fit_avgdl_zero_no_words lg st0 documents j h0
  have hcount : ∀ j, ∀ w ∈ pyWords (pyLower query),
      (pyWords (pyLower ((bm25Fit lg st0 documents).documents.getD j ""))).count w
        = 0 := by
    intro j w _
    show (pyWords (pyLower (documents.getD j ""))).count w = 0
    rw [hnw j]
    rfl
  have hscore : ∀ j, bm25Score (bm25Fit lg st0 documents) query j = 0 :=
    fun j => bm25Score_eq_zero_of_no_terms (hcount j)
  refine ⟨hcount i, hscore i, ?_⟩
  show (sortDesc (fun p : ℕ × K => p.2)
    ((List.range documents.length).map
      (fun j => (j, bm25Score (bm25Fit lg st0 documents) query j)))).take top_k = _
  rw [List.map_congr_left
    (fun j _ => by rw [hscore j] :
      ∀ j ∈ List.range documents.length,
        (j, bm25Score (bm25Fit lg st0 documents) query j) = (j, (0 : K)))]
  rw [sortDesc_eq_self _ ?_]
  refine List.pairwise_map.mpr ?_
  exact List.Pairwise.imp (fun _ => le_refl 0)
    ((List.pairwise_lt_range _).imp (fun {a b} _ => trivial))

/-- Witness for C9: a corpus consisting of one empty document. -/
theorem bm25Fit_avgdl_empty_doc : (bm25Fit id (bm25Init ℚ) [""]).avgdl = 0 := by
  show (if (List.map (fun doc => (pyWords doc).length) [""]).isEmpty then (0:ℚ)
    else ((List.map (fun doc => (pyWords doc).length) [""]).sum : ℚ) /
      ((List.map (fun doc => (pyWords doc).length) [""]).length : ℚ)) = 0
  rw [if_neg (by simp)]
  rw [show (List.map (fun doc => (pyWords doc).length) [""]) = [0] from rfl]
  norm_num

/-- Witness for C9: a corpus consisting of one empty document. -/
theorem claim_C9_bm25_avgdl_zero_witness :
    (bm25Fit id (bm25Init ℚ) [""]).avgdl = 0 ∧
    bm25Score (bm25Fit id (bm25Init ℚ) [""]) "word" 0 = 0 :=
  ⟨bm25Fit_avgdl_empty_doc,
   (claim_C9_bm25_avgdl_zero id (bm25Init ℚ) [""] "word" 0 1
      bm25Fit_avgdl_empty_doc).2.1⟩

/-- Scores after `fit` on the same corpus agree regardless of the
pre-`fit` state (in particular, of stale idf entries): the scoring loop
only ever reads idf entries of words present in the current document,
and those were freshly written by the last `fit`. -/
theorem bm25Score_fit_congr {K : Type} [LinearOrderedField K] (lg : ℚ → K)
    (st1 st2 : BM25State K) (documents : List String) (query : String)
    (i : ℕ) (hk : st1.k1 = st2.k1) (hb : st1.b = st2.b) :
    bm25Score (bm25Fit lg st1 documents) query i =
      bm25Score (bm25Fit lg st2 documents) query i := by
  unfold bm25Score
  have hdocs1 : (bm25Fit lg st1 documents).documents = documents := rfl
  have hdocs2 : (bm25Fit lg st2 documents).documents = documents := rfl
  have hdl : (bm25Fit lg st1 documents).doc_len =
    (bm25Fit lg st2 documents).doc_len := rfl
  have havg : (bm25Fit lg st1 documents).avgdl =
    (bm25Fit lg st2 documents).avgdl := rfl
  have hk12 : (bm25Fit lg st1 documents).k1 =
    (bm25Fit lg st2 documents).k1 := hk
  have hb12 : (bm25Fit lg st1 documents).b =
    (bm25Fit lg st2 documents).b := hb
  simp only [hdocs1, hdocs2, hdl, havg, hk12, hb12]
  by_cases hle : documents.length ≤ i
  · rw [if_pos hle, if_pos hle]
  · have hi : i < documents.length := lt_of_not_le hle
    rw [if_neg hle, if_neg hle]
    refine foldl_ext _ _ 0 _ ?_
    intro acc w _
    by_cases hc : 0 < (pyWords (pyLower (documents.getD i ""))).count w
    · have hdf := docFreq_pos_of_count_pos hi hc
      simp only [if_pos hc, bm25Fit_idf_of_pos lg st1 documents hdf,
        bm25Fit_idf_of_pos lg st2 documents hdf]
    · simp only [if_neg hc]

/-- C10: BM25 results are history-independent across refits — for any
two pre-states with the same `k1` and `b` (in particular, states reached
by any two sequences of `fit` calls from a fresh `BM25()`), fitting both
on the same final corpus yields identical `score` and `search` results
for every query, although `fit` never clears the idf table. -/
theorem claim_C10_bm25_refit_history_independent {K : Type}
    [LinearOrderedField K] (lg : ℚ → K) (st1 st2 : BM25State K)
    (documents : List String) (query : String) (i top_k : ℕ)
    (hk : st1.k1 = st2.k1) (hb : st1.b = st2.b) :
    bm25Score (bm25Fit lg st1 documents) query i =
      bm25Score (bm25Fit lg st2 documents) query i ∧
    bm25Search (bm25Fit lg st1 documents) query top_k =
      bm25Search (bm25Fit lg st2 documents) query top_k := by
  refine ⟨bm25Score_fit_congr lg st1 st2 documents query i hk hb, ?_⟩
  show (sortDesc _ ((List.range documents.length).map
      (fun j => (j, bm25Score (bm25Fit lg st1 documents) query j)))).take top_k
    = (sortDesc _ ((List.range documents.length).map
      (fun j => (j, bm25Score (bm25Fit lg st2 documents) query j)))).take top_k
  rw [List.map_congr_left
    (fun j _ => by rw [bm25Score_fit_congr lg st1 st2 documents query j hk hb] :
      ∀ j ∈ List.range documents.length,
        (j, bm25Score (bm25Fit lg st1 documents) query j) =
          (j, bm25Score (bm25Fit lg st2 documents) query j))]

/-- Witness for C10: the second pre-state carries a stale idf table from
an earlier fit on a different corpus; scores over the final corpus
agree. -/
theorem claim_C10_bm25_refit_history_independent_witness :
    (bm25Init ℚ).k1 = (bm25Fit id (bm25Init ℚ) ["old stale words"]).k1 ∧
    (bm25Init ℚ).b = (bm25Fit id (bm25Init ℚ) ["old stale words"]).b ∧
    bm25Score (bm25Fit id (bm25Init ℚ) ["fresh words"]) "words" 0 =
      bm25Score
        (bm25Fit id (bm25Fit id (bm25Init ℚ) ["old stale words"]) ["fresh words"])
        "words" 0 :=
  ⟨rfl, rfl,
   (claim_C10_bm25_refit_history_independent id (bm25Init ℚ)
      (bm25Fit id (bm25Init ℚ) ["old stale words"]) ["fresh words"] "words" 0 1
      rfl rfl).1⟩

/-! ## Answer generation (src/utils/answer_generator.py)

`calculate_confidence` (lines 209-270) and
`process_answer_citations` (lines 272-305).

The regex `\\[Source (\\d+)\\]` is implemented by a character scanner.
`re.findall` returns non-overlapping matches scanning left to right;
for this pattern two successful matches can never overlap (each match
contains exactly one `[`, at its start), so attempting a match at every
position and always advancing one character yields exactly the same
match list, which is how the scanner below recurses structurally.
-/

/-- Longest digit prefix and the remaining characters (`\\d+` is greedy;
backtracking cannot produce a different match here, since shrinking the
digit run would require `]` to match a digit). -/
def takeDigits : List Char → List Char × List Char
  | [] => ([], [])
  | c :: rest =>
    if c.isDigit then
      let p := takeDigits rest
      (c :: p.1, p.2)
    else ([], c :: rest)

/-- Python `int()` on a digit string. -/
def digitsToNat (ds : List Char) : ℕ :=
  ds.foldl (fun a c => 10 * a + (c.toNat - 48)) 0

/-- Try to match `[Source <digits>]` at the head of the list. -/
def matchSource : List Char → Option ℕ
  | '[' :: 'S' :: 'o' :: 'u' :: 'r' :: 'c' :: 'e' :: ' ' :: rest =>
    match takeDigits rest with
    | (d :: ds, ']' :: _) => some (digitsToNat (d :: ds))
    | _ => none
  | _ => none

/-- All `[Source N]` marker numbers of the text, in order of
appearance (`re.findall(r'\\[Source (\\d+)\\]', answer)` mapped through
`int`). -/
def findSourceMarkers : List Char → List ℕ
  | [] => []
  | c :: rest =>
    match matchSource (c :: rest) with
    | some n => n :: findSourceMarkers rest
    | none => findSourceMarkers rest

/-- Number of `[Source N]` markers in a string
(`len(re.findall(r'\\[Source \\d+\\]', answer))`; the two patterns have
identical matches, the confidence one merely lacks the capture
group). -/
def countSourceMarkers (s : String) : ℕ := (findSourceMarkers s.data).length

/-- An apostrophe character, spelled via its code point. -/
def apos : String := String.singleton (Char.ofNat 39)

/-- The fixed uncertainty phrase list of `calculate_confidence`. -/
def uncertaintyPhrases : List String :=
  ["i don" ++ apos ++ "t know", "i" ++ apos ++ "m not sure", "unclear",
    "might be", "possibly", "perhaps", "could be", "not enough information"]

/-- Factor 1: number of sources, `min(num_sources / 3.0, 1.0)`. -/
def sourceFactor (numSources : ℕ) : ℚ := min ((numSources : ℚ) / 3) 1

/-- Factor 2: average search-result quality, `min(avg_score, 1.0)`.
A search result enters the model as the score value the code reads from
it (`result.get('score', result.get('combined_score', 0))`). -/
def scoreFactor (scores : List ℚ) : ℚ := min (scores.sum / (scores.length : ℚ)) 1

/-- Factor 3: answer completeness, `min(len(answer) / 200.0, 1.0)`. -/
def answerLengthFactor (answer : String) : ℚ := min ((answer.length : ℚ) / 200) 1

/-- Factor 4: citation presence, `min(citations_found / 2.0, 1.0)`. -/
def citationFactor (answer : String) : ℚ :=
  min ((countSourceMarkers answer : ℚ) / 2) 1

/-- The uncertainty penalty: `0.2` added for every phrase of the fixed
list contained (case-insensitively) in the answer; never capped. -/
def uncertaintyPenalty (answer : String) : ℚ :=
  uncertaintyPhrases.foldl
    (fun p phrase => if pyContains phrase (pyLower answer) then p + 1 / 5 else p) 0

/-- The `confidence_factors` list: factor 2 is appended only when
`search_results` is non-empty (`if search_results:`). -/
def confidenceFactors (answer : String) (scores : List ℚ) : List ℚ :=
  [sourceFactor scores.length] ++
    (if scores.isEmpty then [] else [scoreFactor scores]) ++
    [answerLengthFactor answer, citationFactor answer]

/-- `base_confidence = sum(confidence_factors) / len(confidence_factors)`. -/
def baseConfidence (answer : String) (scores : List ℚ) : ℚ :=
  (confidenceFactors answer scores).sum /
    ((confidenceFactors answer scores).length : ℚ)

/-- `AnswerGenerator.calculate_confidence` (answer_generator.py lines
209-270): clamp `base - penalty` into `[0, 1]`.  The `question`
parameter is accepted and, as in the source, never used. -/
def calculateConfidence (question answer : String) (scores : List ℚ) : ℚ :=
  min (max 0 (baseConfidence answer scores - uncertaintyPenalty answer)) 1

theorem uncertaintyPenalty_foldl (cond : String → Bool) (l : List String)
    (c : ℚ) :
    l.foldl (fun p phrase => if cond phrase then p + 1 / 5 else p) c =
      c + (l.countP cond : ℚ) / 5 := by
  induction l generalizing c with
  | nil => simp
  | cons x xs ih =>
    by_cases hx : cond x
    · simp only [List.foldl_cons, if_pos hx, ih, List.countP_cons, hx]
      push_cast
      ring
    · simp only [List.foldl_cons, if_neg hx, ih, List.countP_cons, hx]
      push_cast
      ring

/-- C4: for every question, answer and search-result list the confidence
is within `[0, 1]`; the uncertainty penalty is exactly `0.2` per
distinct matched phrase, uncapped before the subtraction. -/
theorem claim_C4_confidence_in_unit_interval (question answer : String)
    (scores : List ℚ) :
    0 ≤ calculateConfidence question answer scores ∧
    calculateConfidence question answer scores ≤ 1 ∧
    uncertaintyPenalty answer =
      (uncertaintyPhrases.countP
        (fun phrase => pyContains phrase (pyLower answer)) : ℚ) / 5 := by
  refine ⟨?_, ?_, ?_⟩
  · exact le_min (le_max_left 0 _) zero_le_one
  · exact min_le_right _ 1
  · rw [show uncertaintyPenalty answer =
        uncertaintyPhrases.foldl
          (fun p phrase =>
            if pyContains phrase (pyLower answer) then p + 1 / 5 else p) 0
        from rfl,
      uncertaintyPenalty_foldl, zero_add]

/-- The value claim C5 asserts for empty `search_results`: an arithmetic
mean over five factor slots in which the missing average-retrieval-
quality factor enters as a zero term (the computed factors being the
source-count, answer-length and citation factors; the code has no fifth
factor, so that slot can also only be zero). -/
def claimedFiveWayBase (answer : String) : ℚ :=
  (sourceFactor 0 + 0 + answerLengthFactor answer + citationFactor answer + 0) / 5

/-- The weaker reading of claim C5 ignoring the (incorrect) factor
count: the quality factor enters the average as a zero term, so the
mean is taken over four terms. -/
def claimedZeroTermBase (answer : String) : ℚ :=
  (sourceFactor 0 + 0 + answerLengthFactor answer + citationFactor answer) / 4

/-- A 200-character answer with two citation markers and no uncertainty
phrase. -/
def cexAnswerC5 : String :=
  "[Source 1] [Source 2] " ++ String.mk (List.replicate 178 'a')

/-- Counterexample to C5 as stated: with empty `search_results` the code
averages over the three computed factors only — the missing quality
factor is omitted from the denominator, not counted as a zero term —
giving `2/3` here, where any zero-term reading of the claim gives `2/5`
(five-way) or `1/2` (four-way). -/
theorem claim_C5_counterexample :
    baseConfidence cexAnswerC5 [] = 2 / 3 ∧
    claimedFiveWayBase cexAnswerC5 = 2 / 5 ∧
    claimedZeroTermBase cexAnswerC5 = 1 / 2 ∧
    baseConfidence cexAnswerC5 [] ≠ claimedFiveWayBase cexAnswerC5 ∧
    baseConfidence cexAnswerC5 [] ≠ claimedZeroTermBase cexAnswerC5 := by
  have hlen : (cexAnswerC5.length : ℚ) = 200 := by
    rw [show cexAnswerC5.length = 200 from rfl]
    norm_num
  have hmark : (countSourceMarkers cexAnswerC5 : ℚ) = 2 := by
    rw [show countSourceMarkers cexAnswerC5 = 2 from rfl]
    norm_num
  have hsrc : sourceFactor 0 = 0 := by
    simp [sourceFactor]
  have hlenf : answerLengthFactor cexAnswerC5 = 1 := by
    rw [answerLengthFactor, hlen]
    norm_num
  have hcitf : citationFactor cexAnswerC5 = 1 := by
    rw [citationFactor, hmark]
    norm_num
  have hbase : baseConfidence cexAnswerC5 [] = 2 / 3 := by
    rw [baseConfidence,
      show confidenceFactors cexAnswerC5 [] =
        [sourceFactor 0, answerLengthFactor cexAnswerC5,
          citationFactor cexAnswerC5] from rfl]
    rw [List.sum_cons, List.sum_cons, List.sum_cons, List.sum_nil,
      hsrc, hlenf, hcitf]
    norm_num
  refine ⟨hbase, ?_, ?_, ?_, ?_⟩
  · rw [claimedFiveWayBase, hsrc, hlenf, hcitf]
    norm_num
  · rw [claimedZeroTermBase, hsrc, hlenf, hcitf]
    norm_num
  · rw [hbase, claimedFiveWayBase, hsrc, hlenf, hcitf]
    norm_num
  · rw [hbase, claimedZeroTermBase, hsrc, hlenf, hcitf]
    norm_num

/-- C5 (amended): when `search_results` is empty, the confidence before
the uncertainty penalty is the arithmetic mean of the **three** computed
factors — source count (which is 0), answer completeness and citation
density; the missing average-quality factor is omitted from the
average, not entered as a zero term. -/
theorem claim_C5_empty_results_three_way_mean (answer : String) :
    baseConfidence answer [] =
      (sourceFactor 0 + answerLengthFactor answer + citationFactor answer) / 3 := by
  rw [baseConfidence,
    show confidenceFactors answer [] =
      [sourceFactor 0, answerLengthFactor answer, citationFactor answer]
    from rfl]
  rw [List.sum_cons, List.sum_cons, List.sum_cons, List.sum_nil]
  norm_num
  ring

/-- A citation record (the fields `process_answer_citations` reads or
writes; built by `build_context` with 1-based `id`). -/
structure Citation where
  id : ℕ
  filename : String
  text : String
  mentioned_in_answer : Bool
deriving DecidableEq, Inhabited

/-- `citation['mentioned_in_answer'] = True` on a copy. -/
def markMentioned (c : Citation) : Citation := { c with mentioned_in_answer := true }

/-- `AnswerGenerator.process_answer_citations` (answer_generator.py
lines 272-305), happy path: parse all `[Source N]` markers, deduplicate
(`set`, modelled as first-occurrence dedup — the subsequent sort by id
makes the intermediate order irrelevant), keep only 1-based in-bounds
numbers, mark each matched citation, and sort by citation id ascending.
The `except` fallback (return every available citation) is unreachable
for the total functions modelled here. -/
def processAnswerCitations (answer : String) (available : List Citation) :
    List Citation :=
  let cited_numbers := findSourceMarkers answer.data
  let used := (cited_numbers.dedup.filter
      (fun n => decide (1 ≤ n ∧ n ≤ available.length))).map
    (fun n => markMentioned (available.getD (n - 1) default))
  sortAsc (fun c => c.id) used

/-- Three available citations as `build_context` would produce them. -/
def citationsABC : List Citation :=
  [⟨1, "a.md", "ta", false⟩, ⟨2, "b.md", "tb", false⟩, ⟨3, "c.md", "tc", false⟩]

/-- C6: citation extraction marks every returned citation as mentioned,
returns them ordered by id ascending, only ever uses deduplicated
in-bounds marker numbers (never indexing out of bounds), returns every
in-bounds marker's citation, and on `[Source 1]`/`[Source 99]` against
three citations yields exactly the citation with id 1. -/
theorem claim_C6_citation_extraction (answer : String)
    (available : List Citation) :
    (∀ c ∈ processAnswerCitations answer available,
      c.mentioned_in_answer = true) ∧
    (processAnswerCitations answer available).Pairwise
      (fun a b => a.id ≤ b.id) ∧
    (∀ c ∈ processAnswerCitations answer available,
      ∃ n ∈ findSourceMarkers answer.data, 1 ≤ n ∧ n ≤ available.length ∧
        c = markMentioned (available.getD (n - 1) default)) ∧
    (∀ n ∈ findSourceMarkers answer.data, 1 ≤ n → n ≤ available.length →
      markMentioned (available.getD (n - 1) default) ∈
        processAnswerCitations answer available) ∧
    processAnswerCitations "See [Source 1] and [Source 99]." citationsABC =
      [⟨1, "a.md", "ta", true⟩] := by
  have hmem : ∀ c, c ∈ processAnswerCitations answer available ↔
      c ∈ ((findSourceMarkers answer.data).dedup.filter
          (fun n => decide (1 ≤ n ∧ n ≤ available.length))).map
        (fun n => markMentioned (available.getD (n - 1) default)) := by
    intro c
    exact (sortAsc_perm (fun c : Citation => c.id) _).mem_iff
  refine ⟨?_, ?_, ?_, ?_, ?_⟩
  · intro c hc
    rcases List.mem_map.mp ((hmem c).mp hc) with ⟨n, _, rfl⟩
    rfl
  · exact sortAsc_pairwise_le _ _
  · intro c hc
    rcases List.mem_map.mp ((hmem c).mp hc) with ⟨n, hn, rfl⟩
    rcases List.mem_filter.mp hn with ⟨hnd, hbounds⟩
    rcases of_decide_eq_true hbounds with ⟨h1, h2⟩
    exact ⟨n, List.dedup_subset _ hnd, h1, h2, rfl⟩
  · intro n hn h1 h2
    refine (hmem _).mpr (List.mem_map.mpr ⟨n, ?_, rfl⟩)
    refine List.mem_filter.mpr ⟨List.mem_dedup.mpr hn, ?_⟩
    exact decide_eq_true ⟨h1, h2⟩
  · decide

/-- Witness for C6: the completeness conjunct applied at the concrete
example input. -/
theorem claim_C6_citation_extraction_witness :
    markMentioned (citationsABC.getD 0 default) ∈
      processAnswerCitations "See [Source 1] and [Source 99]." citationsABC :=
  (claim_C6_citation_extraction "See [Source 1] and [Source 99]."
    citationsABC).2.2.2.1 1 (by decide) (by decide) (by decide)

/-- Counterexample to C7 as stated: an answer with no markers at all
makes `process_answer_citations` return the empty list, not the full
list of available citations that the claim promises. -/
theorem claim_C7_counterexample :
    processAnswerCitations "The report does not cite anything."
        [⟨1, "a.md", "ta", false⟩] = [] ∧
    ([] : List Citation) ≠ [⟨1, "a.md", "ta", false⟩] := by
  exact ⟨by decide, by decide⟩

/-- C7 (amended): only the exception path of
`process_answer_citations` (unreachable for the total model) returns
every available citation; when parsing succeeds but yields no usable
marker — no marker number at all, or none within bounds — the result is
the empty list. -/
theorem claim_C7_no_valid_markers_empty (answer : String)
    (available : List Citation)
    (h : (findSourceMarkers answer.data).dedup.filter
      (fun n => decide (1 ≤ n ∧ n ≤ available.length)) = []) :
    processAnswerCitations answer available = [] := by
  show sortAsc (fun c => c.id)
    (((findSourceMarkers answer.data).dedup.filter
        (fun n => decide (1 ≤ n ∧ n ≤ available.length))).map
      (fun n => markMentioned (available.getD (n - 1) default))) = []
  rw [h]
  rfl

/-- Witness for C7's amended claim. -/
theorem claim_C7_no_valid_markers_empty_witness :
    (findSourceMarkers "Only [Source 99] is cited.".data).dedup.filter
      (fun n => decide (1 ≤ n ∧ n ≤ ([⟨1, "a.md", "ta", false⟩] : List Citation).length)) = [] ∧
    processAnswerCitations "Only [Source 99] is cited."
      [⟨1, "a.md", "ta", false⟩] = [] :=
  ⟨by decide,
   claim_C7_no_valid_markers_empty "Only [Source 99] is cited."
     [⟨1, "a.md", "ta", false⟩] (by decide)⟩

/-! ## Text chunking (src/utils/embeddings.py, `EmbeddingManager.chunk_text`)

The tiktoken tokenizer behind `count_tokens` is the abstract parameter
`ct : String → ℕ`.  `chunk_text` first cleans the text and splits it
into sentences (lines 60-67); no claim depends on those regular
expressions, so the accumulation loop of lines 69-112 is embedded from
the sentence list onward, quantifying over every possible sentence
list.
-/

/-- Python `s.strip()`: drop whitespace from both ends. -/
def pyStrip (s : String) : String :=
  String.mk
    ((s.data.dropWhile Char.isWhitespace).reverse.dropWhile
      Char.isWhitespace).reverse

/-- A chunk dictionary (`create_chunk_dict`, embeddings.py lines
171-186; the optional metadata merge adds fields no claim reads). -/
structure ChunkRec where
  chunk_id : ℕ
  text : String
  token_count : ℕ
  start_sentence : ℕ
  end_sentence : ℕ
  char_count : ℕ
deriving DecidableEq, Inhabited

def createChunkDict (text : String)
    (chunk_id start_sentence end_sentence token_count : ℕ) : ChunkRec :=
  { chunk_id := chunk_id, text := text, token_count := token_count,
    start_sentence := start_sentence, end_sentence := end_sentence,
    char_count := text.length }

/-- Inner loop of `get_overlap_text` (embeddings.py lines 147-153):
Python iterates `i` from `len(words) - 1` down to `0`, extending the
accepted suffix while its token count stays within the limit and
stopping at the first failure. -/
def overlapGo (ct : String → ℕ) (words : List String) (maxT : ℕ) :
    ℕ → String → String
  | 0, acc =>
    let test := String.intercalate " " words
    if ct test ≤ maxT then test else acc
  | i + 1, acc =>
    let test := String.intercalate " " (words.drop (i + 1))
    if ct test ≤ maxT then overlapGo ct words maxT i test else acc

/-- `EmbeddingManager.get_overlap_text(text, max_tokens)` (embeddings.py
lines 139-155).  `max_tokens ≤ 0` collapses to `= 0` over ℕ. -/
def getOverlapText (ct : String → ℕ) (text : String) (max_tokens : ℕ) :
    String :=
  if max_tokens = 0 then ""
  else
    let words := pyWords text
    if words.isEmpty then ""
    else overlapGo ct words max_tokens (words.length - 1) ""

/-- Inner loop of `calculate_overlap_sentences`: scan the previous
sentences from the last one backwards, returning `len - i` for the
first whose (lower-cased) word set intersects the overlap word set. -/
def overlapSentencesGo (ow : List String) (previous : List String) :
    ℕ → ℕ
  | 0 =>
    if (pyWords (pyLower (previous.getD 0 ""))).any (fun w => ow.contains w)
    then previous.length else 0
  | i + 1 =>
    if (pyWords (pyLower (previous.getD (i + 1) ""))).any
        (fun w => ow.contains w)
    then previous.length - (i + 1) else overlapSentencesGo ow previous i

/-- `EmbeddingManager.calculate_overlap_sentences` (embeddings.py lines
157-169). -/
def calculateOverlapSentences (overlap_text : String)
    (previous : List String) : ℕ :=
  if overlap_text = "" then 0
  else if previous.isEmpty then 0
  else overlapSentencesGo (pyWords (pyLower overlap_text)) previous
    (previous.length - 1)

/-- `current_chunk = overlap_text + " " + sentence if overlap_text else
sentence` — the seed of a fresh chunk. -/
def seedText (ov s : String) : String :=
  if ov ≠ "" then ov ++ " " ++ s else s

/-- The loop state of `chunk_text`. -/
structure ChunkState where
  chunks : List ChunkRec
  current_chunk : String
  current_token_count : ℕ
  sentence_start_idx : ℕ

/-- One iteration of the `for i, sentence in enumerate(sentences)` loop
(embeddings.py lines 74-97).  `max(0, i - …)` coincides with truncated
ℕ subtraction. -/
def chunkStep (ct : String → ℕ) (chunk_size chunk_overlap : ℕ)
    (sentences : List String) (st : ChunkState) (p : ℕ × String) :
    ChunkState :=
  let i := p.1
  let sentence := p.2
  let sentence_tokens := ct sentence
  if chunk_size < st.current_token_count + sentence_tokens ∧
      st.current_chunk ≠ "" then
    let c := createChunkDict (pyStrip st.current_chunk) st.chunks.length
      st.sentence_start_idx (i - 1) st.current_token_count
    let overlap_text := getOverlapText ct st.current_chunk chunk_overlap
    let new_chunk := seedText overlap_text sentence
    { chunks := st.chunks ++ [c]
      current_chunk := new_chunk
      current_token_count := ct new_chunk
      sentence_start_idx :=
        i - calculateOverlapSentences overlap_text (sentences.take i) }
  else
    { st with
      current_chunk :=
        if st.current_chunk ≠ "" then st.current_chunk ++ " " ++ sentence
        else sentence
      current_token_count := st.current_token_count + sentence_tokens }

/-- `EmbeddingManager.chunk_text` from the sentence list onward
(embeddings.py lines 69-112): run the accumulation loop, then emit the
final chunk if it has content. -/
def chunkTextFromSentences (ct : String → ℕ)
    (chunk_size chunk_overlap : ℕ) (sentences : List String) :
    List ChunkRec :=
  let final := sentences.enum.foldl
    (chunkStep ct chunk_size chunk_overlap sentences)
    ⟨[], "", 0, 0⟩
  if pyStrip final.current_chunk ≠ "" then
    final.chunks ++ [createChunkDict (pyStrip final.current_chunk)
      final.chunks.length final.sentence_start_idx (sentences.length - 1)
      final.current_token_count]
  else final.chunks

/-- The word-count tokenizer used for concrete evaluations. -/
def wordTokens (t : String) : ℕ := (pyWords t).length

/-- Three six-word sentences. -/
def cexSentences : List String :=
  ["a a a a a a", "b b b b b b", "c c c c c c"]

/-! ### The soft-cap invariant of the chunking loop -/

theorem append_space_ne_empty (a b : String) : a ++ " " ++ b ≠ "" := by
  intro h
  have hd : (a ++ " " ++ b).data = ("" : String).data := congrArg String.data h
  rw [String.data_append, String.data_append] at hd
  simp at hd

theorem seedText_empty_left (s : String) : seedText "" s = s := by
  simp [seedText]

theorem seedText_eq_empty {ov s : String} (h : seedText ov s = "") :
    ov = "" ∧ s = "" := by
  by_cases hov : ov ≠ ""
  · rw [seedText, if_pos hov] at h
    exact absurd h (append_space_ne_empty ov s)
  · push_neg at hov
    rw [seedText, if_neg (by simpa using hov)] at h
    exact ⟨hov, h⟩

/-- What a chunk exceeding the cap must look like: the (possibly empty)
overlap seed followed by one single sentence, with the token count of
that seed. -/
def SoftCapOk (ct : String → ℕ) (chunk_size : ℕ) (sentences : List String)
    (c : ChunkRec) : Prop :=
  c.token_count ≤ chunk_size ∨
    ∃ ov s, s ∈ sentences ∧ c.text = pyStrip (seedText ov s) ∧
      c.token_count = ct (seedText ov s)

/-- The loop invariant: an empty accumulator carries no tokens, and the
accumulator is empty, within the cap, or a freshly seeded
overlap-plus-one-sentence string. -/
def ChunkInv (ct : String → ℕ) (chunk_size : ℕ) (sentences : List String)
    (st : ChunkState) : Prop :=
  (st.current_chunk = "" → st.current_token_count = 0) ∧
  (st.current_chunk = "" ∨ st.current_token_count ≤ chunk_size ∨
    ∃ ov s, s ∈ sentences ∧ st.current_chunk = seedText ov s ∧
      st.current_token_count = ct (seedText ov s))

theorem chunkStep_inv (ct : String → ℕ) (cs co : ℕ)
    (sentences : List String) (h0 : ct "" = 0) (st : ChunkState)
    (p : ℕ × String) (hp : p.2 ∈ sentences)
    (hinv : ChunkInv ct cs sentences st) :
    ChunkInv ct cs sentences (chunkStep ct cs co sentences st p) ∧
    ∀ c ∈ (chunkStep ct cs co sentences st p).chunks,
      c ∈ st.chunks ∨ SoftCapOk ct cs sentences c := by
  simp only [chunkStep]
  by_cases hc : cs < st.current_token_count + ct p.2 ∧ st.current_chunk ≠ ""
  · rw [if_pos hc]
    refine ⟨⟨?_, ?_⟩, ?_⟩
    · intro hcur0
      show ct (seedText (getOverlapText ct st.current_chunk co) p.2) = 0
      rw [show seedText (getOverlapText ct st.current_chunk co) p.2 = "" from hcur0, h0]
    · right; right
      exact ⟨getOverlapText ct st.current_chunk co, p.2, hp, rfl, rfl⟩
    · intro c hcmem
      rcases List.mem_append.mp hcmem with h | h
      · exact Or.inl h
      · right
        rcases List.mem_singleton.mp h with rfl
        rcases hinv.2 with hcur | hle | ⟨ov, s, hs, hcur, htok⟩
        · exact absurd hcur hc.2
        · exact Or.inl hle
        · exact Or.inr ⟨ov, s, hs, congrArg pyStrip hcur, htok⟩
  · rw [if_neg hc]
    refine ⟨⟨?_, ?_⟩, ?_⟩
    · intro h'
      by_cases hcur : st.current_chunk ≠ ""
      · rw [if_pos hcur] at h'
        exact absurd h' (append_space_ne_empty _ _)
      · push_neg at hcur
        rw [if_neg (by simpa using hcur)] at h'
        have hp2 : p.2 = "" := h'
        show st.current_token_count + ct p.2 = 0
        rw [hinv.1 hcur, hp2, h0]
    · by_cases hcur : st.current_chunk ≠ ""
      · right; left
        exact le_of_not_lt (fun h => hc ⟨h, hcur⟩)
      · push_neg at hcur
        right; right
        refine ⟨"", p.2, hp, ?_, ?_⟩
        · show (if st.current_chunk ≠ "" then st.current_chunk ++ " " ++ p.2
            else p.2) = seedText "" p.2
          rw [if_neg (by simpa using hcur), seedText_empty_left]
        · show st.current_token_count + ct p.2 = ct (seedText "" p.2)
          rw [hinv.1 hcur, seedText_empty_left, Nat.zero_add]
    · intro c hcmem
      exact Or.inl hcmem

theorem chunkFold_inv (ct : String → ℕ) (cs co : ℕ)
    (sentences : List String) (h0 : ct "" = 0) :
    ∀ (l : List (ℕ × String)) (st : ChunkState),
      (∀ p ∈ l, p.2 ∈ sentences) →
      ChunkInv ct cs sentences st →
      (∀ c ∈ st.chunks, SoftCapOk ct cs sentences c) →
      ChunkInv ct cs sentences
        (l.foldl (chunkStep ct cs co sentences) st) ∧
      ∀ c ∈ (l.foldl (chunkStep ct cs co sentences) st).chunks,
        SoftCapOk ct cs sentences c := by
  intro l
  induction l with
  | nil => intro st _ hinv hchunks; exact ⟨hinv, hchunks⟩
  | cons p rest ih =>
    intro st hl hinv hchunks
    simp only [List.foldl_cons]
    have hstep := chunkStep_inv ct cs co sentences h0 st p
      (hl p (List.mem_cons_self _ _)) hinv
    refine ih _ (fun q hq => hl q (List.mem_cons_of_mem _ hq)) hstep.1 ?_
    intro c hcmem
    rcases hstep.2 c hcmem with h | h
    · exact hchunks c h
    · exact h

/-- C2 (amended): a chunk produced by `chunk_text` can exceed the
configured `chunk_size` only when it consists of the (possibly empty)
overlap seed carried over from the previous chunk followed by a single
sentence — in particular a lone over-long sentence, which is emitted
whole — and its recorded `token_count` is the token count of that
seed.  For every tokenizer that counts the empty string as 0 tokens,
every chunk list, and every cap/overlap configuration. -/
theorem claim_C2_chunk_soft_cap (ct : String → ℕ)
    (chunk_size chunk_overlap : ℕ) (sentences : List String)
    (h0 : ct "" = 0) :
    ∀ c ∈ chunkTextFromSentences ct chunk_size chunk_overlap sentences,
      c.token_count ≤ chunk_size ∨
        ∃ ov s, s ∈ sentences ∧ c.text = pyStrip (seedText ov s) ∧
          c.token_count = ct (seedText ov s) := by
  intro c hc
  have henum : ∀ p ∈ sentences.enum, p.2 ∈ sentences := by
    intro p hp
    have := List.mem_map_of_mem Prod.snd hp
    rwa [List.enum_map_snd] at this
  have hfold := chunkFold_inv ct chunk_size chunk_overlap sentences h0
    sentences.enum ⟨[], "", 0, 0⟩ henum
    ⟨fun _ => rfl, Or.inl rfl⟩ (fun c hc => absurd hc (List.not_mem_nil c))
  revert hc
  show c ∈ (if pyStrip (sentences.enum.foldl
      (chunkStep ct chunk_size chunk_overlap sentences)
      ⟨[], "", 0, 0⟩).current_chunk ≠ "" then _ else _) → _
  split
  · intro hc
    rcases List.mem_append.mp hc with h | h
    · exact hfold.2 c h
    · rcases List.mem_singleton.mp h with rfl
      rename_i hg
      have hcur : (sentences.enum.foldl
          (chunkStep ct chunk_size chunk_overlap sentences)
          ⟨[], "", 0, 0⟩).current_chunk ≠ "" := by
        intro h'
        apply hg
        rw [h']
        rfl
      rcases hfold.1.2 with h' | hle | ⟨ov, s, hs, hcur2, htok⟩
      · exact absurd h' hcur
      · exact Or.inl hle
      · exact Or.inr ⟨ov, s, hs, congrArg pyStrip hcur2, htok⟩
  · intro hc
    exact hfold.2 c hc

/-- Counterexample to C2 as stated: with a word-count tokenizer, cap 10
and overlap 9, the sentences `"a a a a a a"`, `"b b b b b b"`,
`"c c c c c c"` produce a chunk of 12 tokens (over the cap) whose text
is the overlap seed plus one sentence — not equal to any single
sentence of the input. -/
theorem claim_C2_counterexample :
    ∃ c ∈ chunkTextFromSentences wordTokens 10 9 cexSentences,
      10 < c.token_count ∧ ∀ s ∈ cexSentences, c.text ≠ s := by
  decide

/-- Witness for C2's amended claim, applied to a concrete chunking run. -/
theorem claim_C2_chunk_soft_cap_witness :
    wordTokens "" = 0 ∧
    (⟨0, "a a a a a a", 6, 0, 0, 11⟩ : ChunkRec) ∈
      chunkTextFromSentences wordTokens 10 9 cexSentences ∧
    ((⟨0, "a a a a a a", 6, 0, 0, 11⟩ : ChunkRec).token_count ≤ 10 ∨
      ∃ ov s, s ∈ cexSentences ∧
        (⟨0, "a a a a a a", 6, 0, 0, 11⟩ : ChunkRec).text =
          pyStrip (seedText ov s) ∧
        (⟨0, "a a a a a a", 6, 0, 0, 11⟩ : ChunkRec).token_count =
          wordTokens (seedText ov s)) :=
  ⟨rfl, by decide,
   claim_C2_chunk_soft_cap wordTokens 10 9 cexSentences rfl _ (by decide)⟩

/-! ## Hybrid search fusion (src/utils/hybrid_search.py,
`HybridSearchEngine.reciprocal_rank_fusion` lines 270-322 and
`HybridSearchEngine.search` lines 324-358)

The two rankers (semantic search via the vector backend, keyword search
via BM25) are external collaborators at this level: `search` consumes
their result lists, so the embedding quantifies over those lists.  A
result enters fusion through its identity key
`f"{doc_id}_{chunk_id}"` and its payload.  The dicts `chunk_scores`
(a `defaultdict(float)`) and `chunk_data` are insertion-ordered
association lists, exactly like Python dicts.
-/

structure SRes where
  doc_id : String
  chunk_id : ℕ
  score : ℚ
deriving DecidableEq, Inhabited

/-- `chunk_key = f"{result['doc_id']}_{result['chunk_id']}"`. -/
def chunkKey (r : SRes) : String := r.doc_id ++ "_" ++ toString r.chunk_id

/-- `chunk_scores[key] += v` on a `defaultdict(float)`: update in place
if the key is present (dict position preserved), else append with
initial value `0 + v = v`. -/
def scoresAdd (m : List (String × ℚ)) (k : String) (v : ℚ) :
    List (String × ℚ) :=
  if m.any (fun q => decide (q.1 = k)) then
    m.map (fun q => if q.1 = k then (q.1, q.2 + v) else q)
  else m ++ [(k, v)]

/-- `chunk_data[key] = r` (semantic phase: unconditional overwrite). -/
def dataSet (m : List (String × SRes)) (k : String) (r : SRes) :
    List (String × SRes) :=
  if m.any (fun q => decide (q.1 = k)) then
    m.map (fun q => if q.1 = k then (q.1, r) else q)
  else m ++ [(k, r)]

/-- `if key not in chunk_data: chunk_data[key] = r` (keyword phase). -/
def dataSetIfAbsent (m : List (String × SRes)) (k : String) (r : SRes) :
    List (String × SRes) :=
  if m.any (fun q => decide (q.1 = k)) then m else m ++ [(k, r)]

/-- `chunk_data[key]` lookup. -/
def dataFind (m : List (String × SRes)) (k : String) : Option SRes :=
  (m.find? (fun q => decide (q.1 = k))).map Prod.snd

/-- One iteration of either ranking loop of
`reciprocal_rank_fusion`: rank is the 1-based enumeration index,
`rrf_score = 1.0 / (k + rank)`, the weighted score is accumulated, and
the payload map is updated by `g` (`dataSet` for the semantic loop,
`dataSetIfAbsent` for the keyword loop). -/
def rrfStep (w : ℚ) (K : ℕ)
    (g : List (String × SRes) → String → SRes → List (String × SRes))
    (sd : List (String × ℚ) × List (String × SRes)) (p : ℕ × SRes) :
    List (String × ℚ) × List (String × SRes) :=
  (scoresAdd sd.1 (chunkKey p.2) (w * (1 / ((K : ℚ) + ((p.1 : ℚ) + 1)))),
   g sd.2 (chunkKey p.2) p.2)

/-- `HybridSearchEngine.reciprocal_rank_fusion(semantic_results,
keyword_results, k=60)`: semantic contributions weighted by `alpha`,
keyword contributions by `1 - alpha`, stable sort by combined score
descending, then rebuild result payloads in sorted order. -/
def reciprocalRankFusion (alpha : ℚ)
    (semantic_results keyword_results : List SRes) (K : ℕ) :
    List (SRes × ℚ) :=
  let sd1 := semantic_results.enum.foldl (rrfStep alpha K dataSet) ([], [])
  let sd2 := keyword_results.enum.foldl
    (rrfStep (1 - alpha) K dataSetIfAbsent) sd1
  let sorted := sortDesc (fun q => q.2) sd2.1
  sorted.foldl
    (fun acc q =>
      match dataFind sd2.2 q.1 with
      | some r => acc ++ [(r, q.2)]
      | none => acc) []

/-- `HybridSearchEngine.search(query, top_k)` from the two ranker
outputs onward: empty when both rankers return nothing, otherwise the
RRF fusion truncated to `top_k`. -/
def hybridSearch (alpha : ℚ)
    (semantic_results keyword_results : List SRes) (top_k : ℕ) :
    List (SRes × ℚ) :=
  if semantic_results.isEmpty && keyword_results.isEmpty then []
  else (reciprocalRankFusion alpha semantic_results keyword_results 60).take
    top_k

/-! ### Association-list helpers -/

theorem anyKey_iff {α : Type} (m : List (String × α)) (k : String) :
    m.any (fun q => decide (q.1 = k)) = true ↔ k ∈ m.map Prod.fst := by
  rw [List.any_eq_true]
  constructor
  · rintro ⟨q, hq, hk⟩
    rw [← of_decide_eq_true hk]
    exact List.mem_map_of_mem Prod.fst hq
  · intro h
    rcases List.mem_map.mp h with ⟨q, hq, rfl⟩
    exact ⟨q, hq, decide_eq_true rfl⟩

theorem anyKey_congr {α β : Type} {m1 : List (String × α)}
    {m2 : List (String × β)} (h : m1.map Prod.fst = m2.map Prod.fst)
    (k : String) :
    m1.any (fun q => decide (q.1 = k)) = m2.any (fun q => decide (q.1 = k)) := by
  by_cases h1 : m1.any (fun q => decide (q.1 = k)) = true
  · rw [h1]
    exact ((anyKey_iff m2 k).mpr (h ▸ (anyKey_iff m1 k).mp h1)).symm
  · rw [Bool.not_eq_true] at h1
    rw [h1]
    by_cases h2 : m2.any (fun q => decide (q.1 = k)) = true
    · exact absurd (Bool.not_eq_true _ ▸ ((anyKey_iff m1 k).mpr
        (h ▸ (anyKey_iff m2 k).mp h2)) ▸ h1) (by simp)
    · rw [Bool.not_eq_true] at h2
      rw [h2]

theorem buildOut_foldl (D : List (String × SRes)) (l : List (String × ℚ))
    (acc : List (SRes × ℚ)) :
    l.foldl
      (fun acc q =>
        match dataFind D q.1 with
        | some r => acc ++ [(r, q.2)]
        | none => acc) acc =
      acc ++ l.filterMap (fun q => (dataFind D q.1).map (fun r => (r, q.2))) := by
  induction l generalizing acc with
  | nil => simp
  | cons q rest ih =>
    simp only [List.foldl_cons, List.filterMap_cons]
    cases h : dataFind D q.1 with
    | none => simp [h, ih]
    | some r => simp [h, ih]

theorem filterMap_eq_map_of_forall_some {α β : Type} (g : α → Option β)
    (h : α → β) (l : List α) (hl : ∀ a ∈ l, g a = some (h a)) :
    l.filterMap g = l.map h := by
  induction l with
  | nil => rfl
  | cons x xs ih =>
    rw [List.filterMap_cons, hl x (List.mem_cons_self _ _), List.map_cons,
      ih (fun a ha => hl a (List.mem_cons_of_mem _ ha))]

/-- Folding one ranking whose keys are pairwise distinct and absent from
both accumulators appends one score entry and one payload entry per
result, in ranking order. -/
theorem rrfStep_fold_fresh (w : ℚ) (K : ℕ)
    (g : List (String × SRes) → String → SRes → List (String × SRes))
    (hg : ∀ m k r, m.any (fun q => decide (q.1 = k)) = false →
      g m k r = m ++ [(k, r)]) :
    ∀ (rs : List SRes) (n : ℕ) (scores : List (String × ℚ))
      (data : List (String × SRes)),
      (rs.map chunkKey).Nodup →
      (∀ r ∈ rs, scores.any (fun q => decide (q.1 = chunkKey r)) = false) →
      (∀ r ∈ rs, data.any (fun q => decide (q.1 = chunkKey r)) = false) →
      (List.enumFrom n rs).foldl (rrfStep w K g) (scores, data) =
        (scores ++ (List.enumFrom n rs).map
          (fun p => (chunkKey p.2, w * (1 / ((K : ℚ) + ((p.1 : ℚ) + 1))))),
         data ++ rs.map (fun r => (chunkKey r, r))) := by
  intro rs
  induction rs with
  | nil => intro n scores data _ _ _; simp [List.enumFrom]
  | cons r rest ih =>
    intro n scores data hnd hsc hda
    have hscr := hsc r (List.mem_cons_self _ _)
    have hdar := hda r (List.mem_cons_self _ _)
    have hnotmem : chunkKey r ∉ rest.map chunkKey :=
      (List.nodup_cons.mp (by simpa using hnd)).1
    have hkey : ∀ x ∈ rest, chunkKey r ≠ chunkKey x := by
      intro x hx heq
      exact hnotmem (heq ▸ List.mem_map_of_mem chunkKey hx)
    show (List.enumFrom (n + 1) rest).foldl (rrfStep w K g)
        (rrfStep w K g (scores, data) (n, r)) = _
    have hstep : rrfStep w K g (scores, data) (n, r) =
        (scores ++ [(chunkKey r, w * (1 / ((K : ℚ) + ((n : ℚ) + 1))))],
         data ++ [(chunkKey r, r)]) := by
      show (scoresAdd scores (chunkKey r) _, g data (chunkKey r) r) = _
      rw [scoresAdd, if_neg (by simp [hscr]), hg data (chunkKey r) r hdar]
    rw [hstep, ih (n + 1) _ _ (by simpa using (List.nodup_cons.mp
      (by simpa using hnd)).2) ?_ ?_]
    · simp [List.enumFrom, List.append_assoc]
    · intro x hx
      simp only [List.any_append, Bool.or_eq_false_iff]
      refine ⟨hsc x (List.mem_cons_of_mem _ hx), ?_⟩
      simp only [List.any_cons, List.any_nil, Bool.or_false]
      exact decide_eq_false (fun h => hkey x hx h)
    · intro x hx
      simp only [List.any_append, Bool.or_eq_false_iff]
      refine ⟨hda x (List.mem_cons_of_mem _ hx), ?_⟩
      simp only [List.any_cons, List.any_nil, Bool.or_false]
      exact decide_eq_false (fun h => hkey x hx h)

theorem mem_enumFrom_snd {α : Type} {n : ℕ} {l : List α} {p : ℕ × α}
    (h : p ∈ List.enumFrom n l) : p.2 ∈ l := by
  rcases List.mem_enumFrom h with ⟨_, _, h3⟩
  rw [h3]
  exact List.getElem_mem _


/-- Keys survive a `scoresAdd` in-place update. -/
theorem scoresUpd_keys (scores : List (String × ℚ)) (k : String) (v : ℚ) :
    ((scores.map (fun q => if q.1 = k then (q.1, q.2 + v) else q)).map
      Prod.fst) = scores.map Prod.fst := by
  rw [List.map_map]
  refine List.map_congr_left ?_
  intro q _
  show (if q.1 = k then (q.1, q.2 + v) else q).1 = q.1
  split <;> rfl

/-- The per-entry effect of the keyword loop on an existing score entry:
add the weighted RRF value of the entry whose key matches, if any. -/
def scoreUpd (w : ℚ) (K : ℕ) (l : List (ℕ × SRes)) (q : String × ℚ) :
    String × ℚ :=
  match l.find? (fun p => decide (chunkKey p.2 = q.1)) with
  | some p => (q.1, q.2 + w * (1 / ((K : ℚ) + ((p.1 : ℚ) + 1))))
  | none => q

theorem scoreUpd_none (w : ℚ) (K : ℕ) (l : List (ℕ × SRes))
    (q : String × ℚ)
    (h : l.find? (fun p => decide (chunkKey p.2 = q.1)) = none) :
    scoreUpd w K l q = q := by
  unfold scoreUpd
  rw [h]

theorem scoreUpd_some (w : ℚ) (K : ℕ) (l : List (ℕ × SRes))
    (q : String × ℚ) (p : ℕ × SRes)
    (h : l.find? (fun p => decide (chunkKey p.2 = q.1)) = some p) :
    scoreUpd w K l q = (q.1, q.2 + w * (1 / ((K : ℚ) + ((p.1 : ℚ) + 1)))) := by
  unfold scoreUpd
  rw [h]

/-- Folding the keyword ranking over arbitrary accumulators (with
pairwise-distinct keys in the ranking and in the accumulator): every
accumulator entry whose key occurs in the ranking receives its weighted
RRF increment in place; fresh keys are appended in ranking order;
payloads are appended only for fresh keys. -/
theorem rrfStep_fold_update (w : ℚ) (K : ℕ) :
    ∀ (rs : List SRes) (n : ℕ) (scores : List (String × ℚ))
      (data : List (String × SRes)),
      (rs.map chunkKey).Nodup →
      (scores.map Prod.fst).Nodup →
      scores.map Prod.fst = data.map Prod.fst →
      (List.enumFrom n rs).foldl (rrfStep w K dataSetIfAbsent)
        (scores, data) =
        (scores.map (scoreUpd w K (List.enumFrom n rs)) ++
          ((List.enumFrom n rs).filter
              (fun p => !(scores.any (fun q => decide (q.1 = chunkKey p.2))))).map
            (fun p => (chunkKey p.2, w * (1 / ((K : ℚ) + ((p.1 : ℚ) + 1))))),
         data ++
          (rs.filter
              (fun r => !(data.any (fun q => decide (q.1 = chunkKey r))))).map
            (fun r => (chunkKey r, r))) := by
  intro rs
  induction rs with
  | nil =>
    intro n scores data _ _ _
    show (scores, data) = _
    have hid : scores.map (scoreUpd w K ([] : List (ℕ × SRes))) = scores := by
      refine (List.map_congr_left ?_).trans (List.map_id scores)
      intro q _
      exact scoreUpd_none w K _ q (by rfl)
    simp [List.enumFrom, hid]
  | cons r rest ih =>
    intro n scores data hnd hsnd hkeys
    have hnotmem : chunkKey r ∉ rest.map chunkKey :=
      (List.nodup_cons.mp (by simpa using hnd)).1
    have hndrest : (rest.map chunkKey).Nodup :=
      (List.nodup_cons.mp (by simpa using hnd)).2
    have hkeyne : ∀ x ∈ rest, chunkKey r ≠ chunkKey x := by
      intro x hx heq
      exact hnotmem (heq ▸ List.mem_map_of_mem chunkKey hx)
    have hfindrest : ∀ q1 : String, q1 = chunkKey r →
        (List.enumFrom (n + 1) rest).find?
          (fun p => decide (chunkKey p.2 = q1)) = none := by
      intro q1 hq1
      rw [List.find?_eq_none]
      intro p hp
      simp only [decide_eq_true_eq]
      intro hc
      exact hkeyne p.2 (mem_enumFrom_snd hp) (by rw [hq1] at hc; exact hc.symm)
    have hcons : List.enumFrom n (r :: rest) =
        (n, r) :: List.enumFrom (n + 1) rest := rfl
    show (List.enumFrom (n + 1) rest).foldl (rrfStep w K dataSetIfAbsent)
      (rrfStep w K dataSetIfAbsent (scores, data) (n, r)) = _
    by_cases hpres : scores.any (fun q => decide (q.1 = chunkKey r)) = true
    · -- head key already present: in-place update, no payload change
      have hpresd : data.any (fun q => decide (q.1 = chunkKey r)) = true := by
        rw [← anyKey_congr hkeys]
        exact hpres
      have hstep : rrfStep w K dataSetIfAbsent (scores, data) (n, r) =
          (scores.map (fun q => if q.1 = chunkKey r then
              (q.1, q.2 + w * (1 / ((K : ℚ) + ((n : ℚ) + 1)))) else q),
            data) := by
        show (scoresAdd scores (chunkKey r) _,
          dataSetIfAbsent data (chunkKey r) r) = _
        rw [scoresAdd, if_pos (by simp [hpres]), dataSetIfAbsent,
          if_pos (by simp [hpresd])]
      rw [hstep, ih (n + 1) _ data hndrest (by rw [scoresUpd_keys]; exact hsnd)
        (by rw [scoresUpd_keys]; exact hkeys)]
      refine Prod.ext ?_ ?_
      · show _ ++ _ = _ ++ _
        refine congrArg₂ (· ++ ·) ?_ ?_
        · rw [List.map_map]
          refine List.map_congr_left ?_
          intro q hq
          by_cases hq1 : q.1 = chunkKey r
          · show scoreUpd w K (List.enumFrom (n + 1) rest)
              (if q.1 = chunkKey r then
                (q.1, q.2 + w * (1 / ((K : ℚ) + ((n : ℚ) + 1)))) else q) = _
            rw [if_pos hq1]
            rw [scoreUpd_none w K _
              (q.1, q.2 + w * (1 / ((K : ℚ) + ((n : ℚ) + 1))))
              (hfindrest q.1 hq1)]
            rw [hcons, scoreUpd_some w K _ q (n, r)
              (List.find?_cons_of_pos _ (by simpa using hq1.symm))]
          · show scoreUpd w K (List.enumFrom (n + 1) rest)
              (if q.1 = chunkKey r then
                (q.1, q.2 + w * (1 / ((K : ℚ) + ((n : ℚ) + 1)))) else q) = _
            rw [if_neg hq1]
            rw [hcons]
            rcases hf : (List.enumFrom (n + 1) rest).find?
                (fun p => decide (chunkKey p.2 = q.1)) with _ | p
            · rw [scoreUpd_none w K _ q hf, scoreUpd_none w K _ q ?_]
              rw [List.find?_cons_of_neg _
                (by simpa using fun h => hq1 h.symm)]
              exact hf
            · rw [scoreUpd_some w K _ q p hf, scoreUpd_some w K _ q p ?_]
              rw [List.find?_cons_of_neg _
                (by simpa using fun h => hq1 h.symm)]
              exact hf
        · rw [hcons, List.filter_cons_of_neg (by simp [hpres])]
          refine congrArg₂ List.map rfl ?_
          refine List.filter_congr ?_
          intro p _
          rw [anyKey_congr (scoresUpd_keys scores (chunkKey r) _)]
      · show data ++ _ = data ++ _
        refine congrArg₂ (· ++ ·) rfl ?_
        rw [List.filter_cons_of_neg (by simp [hpresd])]
    · -- head key fresh: append to both accumulators
      rw [Bool.not_eq_true] at hpres
      have hpresd : data.any (fun q => decide (q.1 = chunkKey r)) = false := by
        rw [← anyKey_congr hkeys]
        exact hpres
      have hq1ne : ∀ q ∈ scores, q.1 ≠ chunkKey r := by
        intro q hq
        have := List.any_eq_false.mp hpres q hq
        simpa using this
      have hstep : rrfStep w K dataSetIfAbsent (scores, data) (n, r) =
          (scores ++ [(chunkKey r, w * (1 / ((K : ℚ) + ((n : ℚ) + 1))))],
            data ++ [(chunkKey r, r)]) := by
        show (scoresAdd scores (chunkKey r) _,
          dataSetIfAbsent data (chunkKey r) r) = _
        rw [scoresAdd, if_neg (by simp [hpres]), dataSetIfAbsent,
          if_neg (by simp [hpresd])]
      have hsnd2 : ((scores ++
          [(chunkKey r, w * (1 / ((K : ℚ) + ((n : ℚ) + 1))))]).map
            Prod.fst).Nodup := by
        rw [List.map_append]
        simp only [List.map_cons, List.map_nil]
        rw [List.nodup_append]
        refine ⟨hsnd, List.nodup_singleton _, ?_⟩
        intro a ha
        simp only [List.mem_singleton]
        intro hb
        rcases List.mem_map.mp ha with ⟨q, hq, rfl⟩
        exact hq1ne q hq hb
      have hkeys2 : (scores ++
          [(chunkKey r, w * (1 / ((K : ℚ) + ((n : ℚ) + 1))))]).map Prod.fst =
          (data ++ [(chunkKey r, r)]).map Prod.fst := by
        rw [List.map_append, List.map_append]
        simp only [List.map_cons, List.map_nil]
        rw [hkeys]
      rw [hstep, ih (n + 1) _ _ hndrest hsnd2 hkeys2]
      refine Prod.ext ?_ ?_
      · show _ ++ _ = _ ++ _
        rw [List.map_append]
        have hone : ([(chunkKey r, w * (1 / ((K : ℚ) + ((n : ℚ) + 1))))].map
            (scoreUpd w K (List.enumFrom (n + 1) rest))) =
            [(chunkKey r, w * (1 / ((K : ℚ) + ((n : ℚ) + 1))))] := by
          simp only [List.map_cons, List.map_nil]
          rw [scoreUpd_none w K _
            (chunkKey r, w * (1 / ((K : ℚ) + ((n : ℚ) + 1))))
            (hfindrest _ rfl)]
        rw [hone]
        have hmain : scores.map (scoreUpd w K (List.enumFrom (n + 1) rest)) =
            scores.map (scoreUpd w K (List.enumFrom n (r :: rest))) := by
          refine List.map_congr_left ?_
          intro q hq
          rw [hcons]
          rcases hf : (List.enumFrom (n + 1) rest).find?
              (fun p => decide (chunkKey p.2 = q.1)) with _ | p
          · rw [scoreUpd_none w K _ q hf, scoreUpd_none w K _ q ?_]
            rw [List.find?_cons_of_neg _
              (by simpa using fun h => hq1ne q hq h.symm)]
            exact hf
          · rw [scoreUpd_some w K _ q p hf, scoreUpd_some w K _ q p ?_]
            rw [List.find?_cons_of_neg _
              (by simpa using fun h => hq1ne q hq h.symm)]
            exact hf
        rw [hmain, hcons, List.filter_cons_of_pos (by simp [hpres]),
          List.map_cons, List.append_assoc, List.singleton_append]
        refine congrArg₂ (· ++ ·) rfl ?_
        refine congrArg₂ List.cons rfl ?_
        refine congrArg₂ List.map rfl ?_
        refine List.filter_congr ?_
        intro p hp
        simp only [List.any_append, List.any_cons, List.any_nil,
          Bool.or_false]
        rw [show (decide (chunkKey r = chunkKey p.2)) = false from
          decide_eq_false (hkeyne p.2 (mem_enumFrom_snd hp))]
        rw [Bool.or_false]
      · show _ ++ _ = data ++ _
        rw [List.filter_cons_of_pos (by simp [hpresd]), List.map_cons,
          List.append_assoc, List.singleton_append]
        refine congrArg₂ (· ++ ·) rfl ?_
        refine congrArg₂ List.cons rfl ?_
        refine congrArg₂ List.map rfl ?_
        refine List.filter_congr ?_
        intro x hx
        simp only [List.any_append, List.any_cons, List.any_nil,
          Bool.or_false]
        rw [show (decide (chunkKey r = chunkKey x)) = false from
          decide_eq_false (hkeyne x hx)]
        rw [Bool.or_false]

/-! ### Generic enumeration and lookup helpers -/

theorem enumFrom_map_snd_f {α β : Type} (f : α → β) :
    ∀ (n : ℕ) (l : List α),
      (List.enumFrom n l).map (fun p => f p.2) = l.map f := by
  intro n l
  induction l generalizing n with
  | nil => rfl
  | cons x xs ih => simp [List.enumFrom, ih]

theorem pairwise_enumFrom_fst {α : Type} :
    ∀ (n : ℕ) (l : List α),
      (List.enumFrom n l).Pairwise (fun p q => p.1 < q.1) := by
  intro n l
  induction l generalizing n with
  | nil => exact List.Pairwise.nil
  | cons x xs ih =>
    refine List.pairwise_cons.mpr ⟨?_, ih (n + 1)⟩
    intro q hq
    have := (List.mem_enumFrom hq).1
    show n < q.1
    omega

theorem enumFrom_filter_snd_map {α β : Type} (P : α → Bool) (f : α → β) :
    ∀ (n : ℕ) (l : List α),
      ((List.enumFrom n l).filter (fun p => P p.2)).map (fun p => f p.2) =
        (l.filter P).map f := by
  intro n l
  induction l generalizing n with
  | nil => rfl
  | cons x xs ih =>
    show (((n, x) :: List.enumFrom (n + 1) xs).filter
      (fun p => P p.2)).map (fun p => f p.2) = _
    by_cases hP : P x = true
    · rw [List.filter_cons_of_pos (by simpa using hP),
        List.filter_cons_of_pos hP, List.map_cons, List.map_cons, ih]
    · rw [List.filter_cons_of_neg (by simpa using hP),
        List.filter_cons_of_neg (by simpa using hP), ih]

theorem exists_enumFrom_of_mem {α : Type} {r : α} :
    ∀ {l : List α} (n : ℕ), r ∈ l → ∃ p ∈ List.enumFrom n l, p.2 = r := by
  intro l
  induction l with
  | nil => intro n h; cases h
  | cons x xs ih =>
    intro n h
    rcases List.mem_cons.mp h with rfl | h2
    · exact ⟨(n, r), List.mem_cons_self _ _, rfl⟩
    · rcases ih (n + 1) h2 with ⟨p, hp, hpr⟩
      exact ⟨p, List.mem_cons_of_mem _ hp, hpr⟩

theorem notAny_eq_decide_not_mem {α : Type} (m : List (String × α))
    (k : String) :
    (!(m.any (fun q => decide (q.1 = k)))) = decide (k ∉ m.map Prod.fst) := by
  cases hb : m.any (fun q => decide (q.1 = k)) with
  | true =>
    have := (anyKey_iff m k).mp hb
    simp [this]
  | false =>
    have : k ∉ m.map Prod.fst := fun h => by
      rw [(anyKey_iff m k).mpr h] at hb
      cases hb
    simp [this]

theorem rrfVal_pos (i : ℕ) : (0 : ℚ) < 1 / ((60 : ℚ) + ((i : ℚ) + 1)) := by
  positivity

theorem rrfVal_lt {i j : ℕ} (h : i < j) :
    1 / ((60 : ℚ) + ((j : ℚ) + 1)) < 1 / ((60 : ℚ) + ((i : ℚ) + 1)) := by
  have hij : (i : ℚ) < (j : ℚ) := by exact_mod_cast h
  apply one_div_lt_one_div_of_lt
  · linarith
  · linarith

/-- In the payload map built from a ranking with distinct keys, looking
up a result key returns that very result. -/
theorem findPairs_self {rs : List SRes} (hs : (rs.map chunkKey).Nodup)
    {r : SRes} (hr : r ∈ rs) :
    (rs.map (fun r => (chunkKey r, r))).find?
      (fun q => decide (q.1 = chunkKey r)) = some (chunkKey r, r) := by
  induction rs with
  | nil => cases hr
  | cons x xs ih =>
    have hnotmem : chunkKey x ∉ xs.map chunkKey :=
      (List.nodup_cons.mp (by simpa using hs)).1
    rcases List.mem_cons.mp hr with rfl | h2
    · rw [List.map_cons, List.find?_cons_of_pos _ (by simp)]
    · have hne : chunkKey x ≠ chunkKey r := by
        intro heq
        exact hnotmem (heq ▸ List.mem_map_of_mem chunkKey h2)
      rw [List.map_cons, List.find?_cons_of_neg _ (by simpa using hne)]
      exact ih (List.nodup_cons.mp (by simpa using hs)).2 h2

/-- A payload map whose entries all pair a result with its own key
resolves every present key to a result carrying that key. -/
theorem dataFind_of_shape {D : List (String × SRes)}
    (hshape : ∀ e ∈ D, e.1 = chunkKey e.2) {k : String}
    (hmem : k ∈ D.map Prod.fst) :
    ∃ r, dataFind D k = some r ∧ chunkKey r = k := by
  have hsome : (D.find? (fun q => decide (q.1 = k))).isSome := by
    rw [List.find?_isSome]
    rcases List.mem_map.mp hmem with ⟨e, he, rfl⟩
    exact ⟨e, he, decide_eq_true rfl⟩
  rcases Option.isSome_iff_exists.mp hsome with ⟨e, he⟩
  have hmem2 := List.mem_of_find?_eq_some he
  have hp2 := List.find?_some he
  simp only [decide_eq_true_eq] at hp2
  have hpred : e.1 = k := hp2
  refine ⟨e.2, ?_, ?_⟩
  · rw [dataFind, he, Option.map_some']
  · rw [← hshape e hmem2, hpred]

theorem buildOut_keys {D : List (String × SRes)} :
    ∀ {l : List (String × ℚ)},
      (∀ q ∈ l, ∃ r, dataFind D q.1 = some r ∧ chunkKey r = q.1) →
      (l.filterMap
        (fun q => (dataFind D q.1).map (fun r => (r, q.2)))).map
        (fun e => chunkKey e.1) = l.map Prod.fst := by
  intro l
  induction l with
  | nil => intro _; rfl
  | cons q rest ih =>
    intro h
    rcases h q (List.mem_cons_self _ _) with ⟨r, hf, hk⟩
    rw [List.filterMap_cons, hf, Option.map_some', List.map_cons,
      List.map_cons, ih (fun q hq => h q (List.mem_cons_of_mem _ hq))]
    rw [show chunkKey r = q.1 from hk]

theorem dataSet_fresh (m : List (String × SRes)) (k : String) (r : SRes)
    (h : m.any (fun q => decide (q.1 = k)) = false) :
    dataSet m k r = m ++ [(k, r)] := by
  rw [dataSet, if_neg (by simp [h])]

/-- Keys of weighted score entries are the result keys. -/
theorem entries_fst (w : ℚ) (K n : ℕ) (rs : List SRes) :
    ((List.enumFrom n rs).map
      (fun p => (chunkKey p.2, w * (1 / ((K : ℚ) + ((p.1 : ℚ) + 1)))))).map
      Prod.fst = rs.map chunkKey := by
  rw [List.map_map]
  exact enumFrom_map_snd_f chunkKey n rs

/-- Keys of a payload map are the result keys. -/
theorem pairs_fst (rs : List SRes) :
    (rs.map (fun r => (chunkKey r, r))).map Prod.fst = rs.map chunkKey := by
  rw [List.map_map]
  rfl

/-- A zero-weight `scoreUpd` is the identity. -/
theorem scoreUpd_one_sub_one (K : ℕ) (l : List (ℕ × SRes))
    (q : String × ℚ) : scoreUpd (1 - 1) K l q = q := by
  rcases hf : l.find? (fun p => decide (chunkKey p.2 = q.1)) with _ | p
  · exact scoreUpd_none _ _ _ _ hf
  · rw [scoreUpd_some _ _ _ _ _ hf]
    have hv : q.2 + (1 - 1) * (1 / ((K : ℚ) + ((p.1 : ℚ) + 1))) = q.2 := by
      ring
    rw [hv]

/-- With `alpha = 1` the fused output carries the semantic payloads in
semantic order, followed by the keyword-only results (combined score 0)
in keyword order. -/
theorem rrf_alpha_one_payloads (sem kw : List SRes)
    (hs : (sem.map chunkKey).Nodup) (hk : (kw.map chunkKey).Nodup) :
    (reciprocalRankFusion 1 sem kw 60).map Prod.fst =
      sem ++ kw.filter (fun r => decide (chunkKey r ∉ sem.map chunkKey)) := by
  have h1 := rrfStep_fold_fresh 1 60 dataSet dataSet_fresh sem 0 [] [] hs
    (fun r _ => rfl) (fun r _ => rfl)
  simp only [List.nil_append] at h1
  have hS1keys := entries_fst 1 60 0 sem
  have hD1keys := pairs_fst sem
  have h2 := rrfStep_fold_update (1 - 1) 60 kw 0
    ((List.enumFrom 0 sem).map
      (fun p => (chunkKey p.2, 1 * (1 / (((60 : ℕ) : ℚ) + ((p.1 : ℚ) + 1))))))
    (sem.map (fun r => (chunkKey r, r)))
    hk (by rw [hS1keys]; exact hs) (by rw [hS1keys, hD1keys])
  have hsd2 : (List.enumFrom 0 kw).foldl (rrfStep (1 - 1) 60 dataSetIfAbsent)
      (List.foldl (rrfStep 1 60 dataSet) ([], []) (List.enumFrom 0 sem)) =
      (((List.enumFrom 0 sem).map
          (fun p => (chunkKey p.2,
            1 * (1 / (((60 : ℕ) : ℚ) + ((p.1 : ℚ) + 1)))))).map
          (scoreUpd (1 - 1) 60 (List.enumFrom 0 kw)) ++
        ((List.enumFrom 0 kw).filter
            (fun p => !(((List.enumFrom 0 sem).map
              (fun p => (chunkKey p.2,
                1 * (1 / (((60 : ℕ) : ℚ) + ((p.1 : ℚ) + 1)))))).any
              (fun q => decide (q.1 = chunkKey p.2))))).map
          (fun p => (chunkKey p.2,
            (1 - 1) * (1 / (((60 : ℕ) : ℚ) + ((p.1 : ℚ) + 1))))),
       sem.map (fun r => (chunkKey r, r)) ++
        (kw.filter
            (fun r => !((sem.map (fun r => (chunkKey r, r))).any
              (fun q => decide (q.1 = chunkKey r))))).map
          (fun r => (chunkKey r, r))) := by
    rw [h1]
    exact h2
  have hupdid : ((List.enumFrom 0 sem).map
      (fun p => (chunkKey p.2,
        1 * (1 / (((60 : ℕ) : ℚ) + ((p.1 : ℚ) + 1)))))).map (scoreUpd (1 - 1) 60 (List.enumFrom 0 kw)) = ((List.enumFrom 0 sem).map
      (fun p => (chunkKey p.2,
        1 * (1 / (((60 : ℕ) : ℚ) + ((p.1 : ℚ) + 1)))))) :=
    (List.map_congr_left (fun q _ => scoreUpd_one_sub_one 60 _ q)).trans
      (List.map_id _)
  have hsorted : sortDesc (fun q : String × ℚ => q.2) (((List.enumFrom 0 sem).map
      (fun p => (chunkKey p.2,
        1 * (1 / (((60 : ℕ) : ℚ) + ((p.1 : ℚ) + 1)))))) ++ (((List.enumFrom 0 kw).filter
      (fun p => !(((List.enumFrom 0 sem).map
      (fun p => (chunkKey p.2,
        1 * (1 / (((60 : ℕ) : ℚ) + ((p.1 : ℚ) + 1)))))).any
        (fun q => decide (q.1 = chunkKey p.2))))).map
      (fun p => (chunkKey p.2,
        (1 - 1) * (1 / (((60 : ℕ) : ℚ) + ((p.1 : ℚ) + 1))))))) = ((List.enumFrom 0 sem).map
      (fun p => (chunkKey p.2,
        1 * (1 / (((60 : ℕ) : ℚ) + ((p.1 : ℚ) + 1)))))) ++ (((List.enumFrom 0 kw).filter
      (fun p => !(((List.enumFrom 0 sem).map
      (fun p => (chunkKey p.2,
        1 * (1 / (((60 : ℕ) : ℚ) + ((p.1 : ℚ) + 1)))))).any
        (fun q => decide (q.1 = chunkKey p.2))))).map
      (fun p => (chunkKey p.2,
        (1 - 1) * (1 / (((60 : ℕ) : ℚ) + ((p.1 : ℚ) + 1)))))) := by
    refine sortDesc_eq_self _ ?_
    refine List.pairwise_append.mpr ⟨?_, ?_, ?_⟩
    · refine (pairwise_enumFrom_fst 0 sem).map _ ?_
      intro a b hab
      show 1 * (1 / (((60 : ℕ) : ℚ) + ((b.1 : ℚ) + 1))) ≤
        1 * (1 / (((60 : ℕ) : ℚ) + ((a.1 : ℚ) + 1)))
      simp only [one_mul, Nat.cast_ofNat]
      exact le_of_lt (rrfVal_lt hab)
    · refine ((pairwise_enumFrom_fst 0 kw).sublist
        (List.filter_sublist _)).map _ ?_
      intro a b _
      show (1 - 1) * (1 / (((60 : ℕ) : ℚ) + ((b.1 : ℚ) + 1))) ≤
        (1 - 1) * (1 / (((60 : ℕ) : ℚ) + ((a.1 : ℚ) + 1)))
      norm_num
    · intro a ha b hb
      rcases List.mem_map.mp ha with ⟨p, _, rfl⟩
      rcases List.mem_map.mp hb with ⟨p2, _, rfl⟩
      show (1 - 1) * (1 / (((60 : ℕ) : ℚ) + ((p2.1 : ℚ) + 1))) ≤
        1 * (1 / (((60 : ℕ) : ℚ) + ((p.1 : ℚ) + 1)))
      norm_num
      positivity
  have hfmS1 : ((List.enumFrom 0 sem).map
      (fun p => (chunkKey p.2,
        1 * (1 / (((60 : ℕ) : ℚ) + ((p.1 : ℚ) + 1)))))).filterMap
      (fun q => (dataFind ((sem.map (fun r => (chunkKey r, r))) ++
      (kw.filter (fun r => !((sem.map (fun r => (chunkKey r, r))).any
        (fun q => decide (q.1 = chunkKey r))))).map (fun r => (chunkKey r, r))) q.1).map (fun r => (r, q.2))) =
      (List.enumFrom 0 sem).map
        (fun p => ((p.2 : SRes),
          1 * (1 / (((60 : ℕ) : ℚ) + ((p.1 : ℚ) + 1))))) := by
    rw [List.filterMap_map]
    refine filterMap_eq_map_of_forall_some _ _ _ ?_
    intro p hp
    have hfind : dataFind ((sem.map (fun r => (chunkKey r, r))) ++
      (kw.filter (fun r => !((sem.map (fun r => (chunkKey r, r))).any
        (fun q => decide (q.1 = chunkKey r))))).map (fun r => (chunkKey r, r))) (chunkKey p.2) = some p.2 := by
      rw [dataFind, List.find?_append, findPairs_self hs (mem_enumFrom_snd hp)]
      rfl
    show (dataFind ((sem.map (fun r => (chunkKey r, r))) ++
      (kw.filter (fun r => !((sem.map (fun r => (chunkKey r, r))).any
        (fun q => decide (q.1 = chunkKey r))))).map (fun r => (chunkKey r, r))) (chunkKey p.2)).map
      (fun r => (r, 1 * (1 / (((60 : ℕ) : ℚ) + ((p.1 : ℚ) + 1))))) = _
    rw [hfind, Option.map_some']
  have hfmF : (((List.enumFrom 0 kw).filter
      (fun p => !(((List.enumFrom 0 sem).map
      (fun p => (chunkKey p.2,
        1 * (1 / (((60 : ℕ) : ℚ) + ((p.1 : ℚ) + 1)))))).any
        (fun q => decide (q.1 = chunkKey p.2))))).map
      (fun p => (chunkKey p.2,
        (1 - 1) * (1 / (((60 : ℕ) : ℚ) + ((p.1 : ℚ) + 1)))))).filterMap
      (fun q => (dataFind ((sem.map (fun r => (chunkKey r, r))) ++
      (kw.filter (fun r => !((sem.map (fun r => (chunkKey r, r))).any
        (fun q => decide (q.1 = chunkKey r))))).map (fun r => (chunkKey r, r))) q.1).map (fun r => (r, q.2))) =
      ((List.enumFrom 0 kw).filter
      (fun p => !(((List.enumFrom 0 sem).map
      (fun p => (chunkKey p.2,
        1 * (1 / (((60 : ℕ) : ℚ) + ((p.1 : ℚ) + 1)))))).any
        (fun q => decide (q.1 = chunkKey p.2))))).map
        (fun p => ((p.2 : SRes),
          (1 - 1) * (1 / (((60 : ℕ) : ℚ) + ((p.1 : ℚ) + 1))))) := by
    rw [List.filterMap_map]
    refine filterMap_eq_map_of_forall_some _ _ _ ?_
    intro p hp
    have hmemkw : p.2 ∈ kw := mem_enumFrom_snd (List.mem_of_mem_filter hp)
    have hfreshS : ((List.enumFrom 0 sem).map
      (fun p => (chunkKey p.2,
        1 * (1 / (((60 : ℕ) : ℚ) + ((p.1 : ℚ) + 1)))))).any (fun q => decide (q.1 = chunkKey p.2)) = false := by
      have h := List.of_mem_filter hp
      simpa using h
    have hnotmemsem : chunkKey p.2 ∉ sem.map chunkKey := by
      intro hmem
      have htrue := (anyKey_iff ((List.enumFrom 0 sem).map
      (fun p => (chunkKey p.2,
        1 * (1 / (((60 : ℕ) : ℚ) + ((p.1 : ℚ) + 1)))))) (chunkKey p.2)).mpr
        (by rw [hS1keys]; exact hmem)
      rw [htrue] at hfreshS
      cases hfreshS
    have hkeq : ((List.enumFrom 0 sem).map
      (fun p => (chunkKey p.2,
        1 * (1 / (((60 : ℕ) : ℚ) + ((p.1 : ℚ) + 1)))))).map Prod.fst = (sem.map (fun r => (chunkKey r, r))).map Prod.fst := by
      rw [hS1keys, hD1keys]
    have hfreshD : (sem.map (fun r => (chunkKey r, r))).any (fun q => decide (q.1 = chunkKey p.2)) = false := by
      rw [← anyKey_congr hkeq]
      exact hfreshS
    have hfind : dataFind ((sem.map (fun r => (chunkKey r, r))) ++
      (kw.filter (fun r => !((sem.map (fun r => (chunkKey r, r))).any
        (fun q => decide (q.1 = chunkKey r))))).map (fun r => (chunkKey r, r))) (chunkKey p.2) = some p.2 := by
      rw [dataFind, List.find?_append]
      have hnone : (sem.map (fun r => (chunkKey r, r))).find? (fun q => decide (q.1 = chunkKey p.2)) = none := by
        rw [List.find?_eq_none]
        intro e he
        simp only [decide_eq_true_eq]
        intro heq
        rcases List.mem_map.mp he with ⟨r, hr, rfl⟩
        exact hnotmemsem (heq ▸ List.mem_map_of_mem chunkKey hr)
      rw [hnone]
      have hA : ((kw.filter (fun r => !((sem.map (fun r => (chunkKey r, r))).any
        (fun q => decide (q.1 = chunkKey r))))).map (fun r => (chunkKey r, r))).find?
          (fun q => decide (q.1 = chunkKey p.2)) =
          some (chunkKey p.2, p.2) := by
        refine findPairs_self ?_ ?_
        · exact List.Nodup.sublist ((List.filter_sublist kw).map chunkKey) hk
        · refine List.mem_filter.mpr ⟨hmemkw, ?_⟩
          show (!((sem.map (fun r => (chunkKey r, r))).any (fun q => decide (q.1 = chunkKey p.2)))) = true
          rw [hfreshD]
          rfl
      rw [hA]
      rfl
    show (dataFind ((sem.map (fun r => (chunkKey r, r))) ++
      (kw.filter (fun r => !((sem.map (fun r => (chunkKey r, r))).any
        (fun q => decide (q.1 = chunkKey r))))).map (fun r => (chunkKey r, r))) (chunkKey p.2)).map
      (fun r => (r, (1 - 1) * (1 / (((60 : ℕ) : ℚ) + ((p.1 : ℚ) + 1))))) = _
    rw [hfind, Option.map_some']
  have henum1 : sem.enum = List.enumFrom 0 sem := rfl
  have henum2 : kw.enum = List.enumFrom 0 kw := rfl
  have hfst : ((List.enumFrom 0 kw).foldl (rrfStep (1 - 1) 60 dataSetIfAbsent)
      (List.foldl (rrfStep 1 60 dataSet) ([], []) (List.enumFrom 0 sem))).1 =
      ((List.enumFrom 0 sem).map
      (fun p => (chunkKey p.2,
        1 * (1 / (((60 : ℕ) : ℚ) + ((p.1 : ℚ) + 1)))))) ++ (((List.enumFrom 0 kw).filter
      (fun p => !(((List.enumFrom 0 sem).map
      (fun p => (chunkKey p.2,
        1 * (1 / (((60 : ℕ) : ℚ) + ((p.1 : ℚ) + 1)))))).any
        (fun q => decide (q.1 = chunkKey p.2))))).map
      (fun p => (chunkKey p.2,
        (1 - 1) * (1 / (((60 : ℕ) : ℚ) + ((p.1 : ℚ) + 1)))))) := by
    rw [hsd2, hupdid]
  have hsnd : ((List.enumFrom 0 kw).foldl (rrfStep (1 - 1) 60 dataSetIfAbsent)
      (List.foldl (rrfStep 1 60 dataSet) ([], []) (List.enumFrom 0 sem))).2 =
      ((sem.map (fun r => (chunkKey r, r))) ++
      (kw.filter (fun r => !((sem.map (fun r => (chunkKey r, r))).any
        (fun q => decide (q.1 = chunkKey r))))).map (fun r => (chunkKey r, r))) := by
    rw [hsd2]
  simp only [reciprocalRankFusion, henum1, henum2, hfst, hsnd, hsorted]
  rw [buildOut_foldl, List.nil_append, List.filterMap_append, hfmS1, hfmF,
    List.map_append]
  refine congrArg₂ (· ++ ·) ?_ ?_
  · rw [List.map_map]
    rw [show (Prod.fst ∘ fun p : ℕ × SRes =>
      ((p.2 : SRes), 1 * (1 / (((60 : ℕ) : ℚ) + ((p.1 : ℚ) + 1))))) =
      Prod.snd from rfl]
    exact List.enumFrom_map_snd 0 sem
  · rw [List.map_map]
    rw [show (Prod.fst ∘ fun p : ℕ × SRes =>
      ((p.2 : SRes), (1 - 1) * (1 / (((60 : ℕ) : ℚ) + ((p.1 : ℚ) + 1))))) =
      (fun p : ℕ × SRes => (fun r : SRes => r) p.2) from rfl]
    rw [enumFrom_filter_snd_map
      (fun r => !(((List.enumFrom 0 sem).map
      (fun p => (chunkKey p.2,
        1 * (1 / (((60 : ℕ) : ℚ) + ((p.1 : ℚ) + 1)))))).any (fun q => decide (q.1 = chunkKey r))))
      (fun r : SRes => r) 0 kw]
    rw [show (kw.filter
        (fun r => !(((List.enumFrom 0 sem).map
      (fun p => (chunkKey p.2,
        1 * (1 / (((60 : ℕ) : ℚ) + ((p.1 : ℚ) + 1)))))).any (fun q => decide (q.1 = chunkKey r))))).map
        (fun r : SRes => r) =
      kw.filter
        (fun r => !(((List.enumFrom 0 sem).map
      (fun p => (chunkKey p.2,
        1 * (1 / (((60 : ℕ) : ℚ) + ((p.1 : ℚ) + 1)))))).any (fun q => decide (q.1 = chunkKey r)))) from
      List.map_id _]
    refine List.filter_congr ?_
    intro r _
    rw [notAny_eq_decide_not_mem, hS1keys]

/-! ### The `alpha = 0` side: canonical keyword entries -/

/-- The combined score a key receives from the keyword ranking when the
semantic weight is zero: the RRF value of its keyword rank, or 0 for a
key the keyword ranking does not contain. -/
def kwRankVal (kwE : List (ℕ × SRes)) (k : String) : ℚ :=
  match kwE.find? (fun p => decide (chunkKey p.2 = k)) with
  | some p => 1 / (((60 : ℕ) : ℚ) + ((p.1 : ℚ) + 1))
  | none => 0

theorem kwRankVal_none (kwE : List (ℕ × SRes)) (k : String)
    (h : kwE.find? (fun p => decide (chunkKey p.2 = k)) = none) :
    kwRankVal kwE k = 0 := by
  unfold kwRankVal
  rw [h]

theorem kwRankVal_some (kwE : List (ℕ × SRes)) (k : String) (p : ℕ × SRes)
    (h : kwE.find? (fun p => decide (chunkKey p.2 = k)) = some p) :
    kwRankVal kwE k = 1 / (((60 : ℕ) : ℚ) + ((p.1 : ℚ) + 1)) := by
  unfold kwRankVal
  rw [h]

theorem kwRankVal_nonneg (kwE : List (ℕ × SRes)) (k : String) :
    0 ≤ kwRankVal kwE k := by
  rcases hf : kwE.find? (fun p => decide (chunkKey p.2 = k)) with _ | p
  · rw [kwRankVal_none _ _ hf]
  · rw [kwRankVal_some _ _ _ hf]
    positivity

/-- A key of a distinct-key keyword ranking looks up its own rank. -/
theorem kwRankVal_self {kw : List SRes} (hk : (kw.map chunkKey).Nodup)
    {p : ℕ × SRes} (hp : p ∈ List.enumFrom 0 kw) :
    kwRankVal (List.enumFrom 0 kw) (chunkKey p.2) =
      1 / (((60 : ℕ) : ℚ) + ((p.1 : ℚ) + 1)) := by
  have hsome : ((List.enumFrom 0 kw).find?
      (fun q => decide (chunkKey q.2 = chunkKey p.2))).isSome := by
    rw [List.find?_isSome]
    exact ⟨p, hp, decide_eq_true rfl⟩
  rcases Option.isSome_iff_exists.mp hsome with ⟨q, hq⟩
  have hmem := List.mem_of_find?_eq_some hq
  have hpred := List.find?_some hq
  simp only [decide_eq_true_eq] at hpred
  have hinj : (List.enumFrom 0 kw).map (fun p => chunkKey p.2) =
      kw.map chunkKey := enumFrom_map_snd_f chunkKey 0 kw
  have hqp : q = p :=
    List.inj_on_of_nodup_map (hinj ▸ hk) hmem hp hpred
  rw [kwRankVal_some _ _ _ hq, hqp]

/-- Positivity of the canonical combined score characterises keyword
membership. -/
theorem kwRankVal_pos_iff {kw : List SRes} (k : String) :
    0 < kwRankVal (List.enumFrom 0 kw) k ↔ k ∈ kw.map chunkKey := by
  constructor
  · intro h
    rcases hf : (List.enumFrom 0 kw).find?
        (fun p => decide (chunkKey p.2 = k)) with _ | p
    · rw [kwRankVal_none _ _ hf] at h
      exact absurd h (lt_irrefl 0)
    · have hmem := List.mem_of_find?_eq_some hf
      have hpred := List.find?_some hf
      simp only [decide_eq_true_eq] at hpred
      exact hpred ▸ List.mem_map_of_mem chunkKey (mem_enumFrom_snd hmem)
  · intro h
    rcases List.mem_map.mp h with ⟨r, hr, rfl⟩
    rcases exists_enumFrom_of_mem 0 hr with ⟨p, hp, hpr⟩
    have hsome : ((List.enumFrom 0 kw).find?
        (fun q => decide (chunkKey q.2 = chunkKey r))).isSome := by
      rw [List.find?_isSome]
      exact ⟨p, hp, decide_eq_true (by rw [hpr])⟩
    rcases Option.isSome_iff_exists.mp hsome with ⟨q, hq⟩
    rw [kwRankVal_some _ _ _ hq]
    positivity

/-- The canonical entry a key contributes to `chunk_scores` when
`alpha = 0`. -/
def keyEntry (kwE : List (ℕ × SRes)) (k : String) : String × ℚ :=
  (k, kwRankVal kwE k)

/-- With `alpha = 0`, updating the zero-valued semantic entries with the
keyword increments yields the canonical entries, in semantic key
order. -/
theorem alpha_zero_shared_canon (sem kw : List SRes) :
    (((List.enumFrom 0 sem).map
      (fun p => (chunkKey p.2,
        0 * (1 / (((60 : ℕ) : ℚ) + ((p.1 : ℚ) + 1))))))).map (scoreUpd (1 - 0) 60 (List.enumFrom 0 kw)) =
      (sem.map chunkKey).map (keyEntry (List.enumFrom 0 kw)) := by
  rw [List.map_map, List.map_map]
  rw [show ((keyEntry (List.enumFrom 0 kw)) ∘ chunkKey) =
    (fun r : SRes => keyEntry (List.enumFrom 0 kw) (chunkKey r)) from rfl]
  rw [← enumFrom_map_snd_f
    (fun r : SRes => keyEntry (List.enumFrom 0 kw) (chunkKey r)) 0 sem]
  refine List.map_congr_left ?_
  intro p _
  show scoreUpd (1 - 0) 60 (List.enumFrom 0 kw)
    (chunkKey p.2, 0 * (1 / (((60 : ℕ) : ℚ) + ((p.1 : ℚ) + 1)))) =
    keyEntry (List.enumFrom 0 kw) (chunkKey p.2)
  rcases hf : (List.enumFrom 0 kw).find?
      (fun q => decide (chunkKey q.2 = chunkKey p.2)) with _ | pk
  · rw [scoreUpd_none (1 - 0) 60 _
      (chunkKey p.2, 0 * (1 / (((60 : ℕ) : ℚ) + ((p.1 : ℚ) + 1)))) hf]
    rw [keyEntry, kwRankVal_none _ _ hf]
    rw [show (0 : ℚ) * (1 / (((60 : ℕ) : ℚ) + ((p.1 : ℚ) + 1))) = 0 from
      zero_mul _]
  · rw [scoreUpd_some (1 - 0) 60 _
      (chunkKey p.2, 0 * (1 / (((60 : ℕ) : ℚ) + ((p.1 : ℚ) + 1)))) pk hf]
    rw [keyEntry, kwRankVal_some _ _ _ hf]
    rw [show (0 : ℚ) * (1 / (((60 : ℕ) : ℚ) + ((p.1 : ℚ) + 1))) +
      (1 - 0) * (1 / (((60 : ℕ) : ℚ) + ((pk.1 : ℚ) + 1))) =
      1 / (((60 : ℕ) : ℚ) + ((pk.1 : ℚ) + 1)) from by ring]

/-- With `alpha = 0`, the appended keyword-only entries are the
canonical entries of the keyword-only keys, in keyword order. -/
theorem alpha_zero_fresh_canon (sem kw : List SRes)
    (hk : (kw.map chunkKey).Nodup) :
    (((List.enumFrom 0 kw).filter
      (fun p => !(((List.enumFrom 0 sem).map
      (fun p => (chunkKey p.2,
        0 * (1 / (((60 : ℕ) : ℚ) + ((p.1 : ℚ) + 1)))))).any
        (fun q => decide (q.1 = chunkKey p.2)))))).map
      (fun p => (chunkKey p.2,
        (1 - 0) * (1 / (((60 : ℕ) : ℚ) + ((p.1 : ℚ) + 1))))) =
      ((kw.map chunkKey).filter
        (fun k => decide (k ∉ sem.map chunkKey))).map
        (keyEntry (List.enumFrom 0 kw)) := by
  have hstep1 : (((List.enumFrom 0 kw).filter
      (fun p => !(((List.enumFrom 0 sem).map
      (fun p => (chunkKey p.2,
        0 * (1 / (((60 : ℕ) : ℚ) + ((p.1 : ℚ) + 1)))))).any
        (fun q => decide (q.1 = chunkKey p.2)))))).map
      (fun p => (chunkKey p.2,
        (1 - 0) * (1 / (((60 : ℕ) : ℚ) + ((p.1 : ℚ) + 1))))) =
      (((List.enumFrom 0 kw).filter
      (fun p => !(((List.enumFrom 0 sem).map
      (fun p => (chunkKey p.2,
        0 * (1 / (((60 : ℕ) : ℚ) + ((p.1 : ℚ) + 1)))))).any
        (fun q => decide (q.1 = chunkKey p.2)))))).map
        (fun p => keyEntry (List.enumFrom 0 kw) (chunkKey p.2)) := by
    refine List.map_congr_left ?_
    intro p hp
    have hpkw : p ∈ List.enumFrom 0 kw := List.mem_of_mem_filter hp
    rw [keyEntry, kwRankVal_self hk hpkw]
    rw [show (1 - 0 : ℚ) * (1 / (((60 : ℕ) : ℚ) + ((p.1 : ℚ) + 1))) =
      1 / (((60 : ℕ) : ℚ) + ((p.1 : ℚ) + 1)) from by ring]
  rw [hstep1]
  rw [enumFrom_filter_snd_map
    (fun r => !(((List.enumFrom 0 sem).map
      (fun p => (chunkKey p.2,
        0 * (1 / (((60 : ℕ) : ℚ) + ((p.1 : ℚ) + 1)))))).any (fun q => decide (q.1 = chunkKey r))))
    (fun r : SRes => keyEntry (List.enumFrom 0 kw) (chunkKey r)) 0 kw]
  rw [List.filter_congr (fun r _ => by
    rw [notAny_eq_decide_not_mem, entries_fst] :
    ∀ r ∈ kw, (!(((List.enumFrom 0 sem).map
      (fun p => (chunkKey p.2,
        0 * (1 / (((60 : ℕ) : ℚ) + ((p.1 : ℚ) + 1)))))).any (fun q => decide (q.1 = chunkKey r)))) =
      decide (chunkKey r ∉ sem.map chunkKey))]
  rw [show (fun r : SRes => keyEntry (List.enumFrom 0 kw) (chunkKey r)) =
    (keyEntry (List.enumFrom 0 kw)) ∘ chunkKey from rfl]
  rw [← List.map_map]
  refine congrArg (List.map (keyEntry (List.enumFrom 0 kw))) ?_
  rw [List.filter_map]
  rfl

/-- The shared keys (in semantic order) followed by the keyword-only
keys (in keyword order) are a permutation of all keyword keys. -/
theorem shared_fresh_perm_kw (sem kw : List SRes)
    (hs : (sem.map chunkKey).Nodup) (hk : (kw.map chunkKey).Nodup) :
    List.Perm
      ((sem.map chunkKey).filter (fun k => decide (k ∈ kw.map chunkKey)) ++
        (kw.map chunkKey).filter (fun k => decide (k ∉ sem.map chunkKey)))
      (kw.map chunkKey) := by
  have hperm1 : List.Perm
      ((sem.map chunkKey).filter (fun k => decide (k ∈ kw.map chunkKey)))
      ((kw.map chunkKey).filter (fun k => decide (k ∈ sem.map chunkKey))) := by
    refine (List.perm_ext_iff_of_nodup (hs.filter _) (hk.filter _)).mpr ?_
    intro k
    simp only [List.mem_filter, decide_eq_true_eq]
    exact ⟨fun ⟨h1, h2⟩ => ⟨h2, h1⟩, fun ⟨h1, h2⟩ => ⟨h2, h1⟩⟩
  have hperm2 : List.Perm
      ((kw.map chunkKey).filter (fun k => decide (k ∈ sem.map chunkKey)) ++
        (kw.map chunkKey).filter (fun k => decide (k ∉ sem.map chunkKey)))
      (kw.map chunkKey) := by
    have hcongr : (kw.map chunkKey).filter
        (fun k => decide (k ∉ sem.map chunkKey)) =
        (kw.map chunkKey).filter
          (fun k => !(decide (k ∈ sem.map chunkKey))) := by
      refine List.filter_congr ?_
      intro k _
      exact decide_not
    rw [hcongr]
    exact List.filter_append_perm _ _
  exact (hperm1.append_right _).trans hperm2

/-- The canonical entries of the keyword keys, in keyword order, are the
strictly descending RRF entries of the keyword ranking. -/
theorem kw_keyEntry_clean (sem kw : List SRes)
    (hk : (kw.map chunkKey).Nodup) :
    (kw.map chunkKey).map (keyEntry (List.enumFrom 0 kw)) =
      (List.enumFrom 0 kw).map
        (fun p => (chunkKey p.2,
          1 / (((60 : ℕ) : ℚ) + ((p.1 : ℚ) + 1)))) := by
  rw [← enumFrom_map_snd_f chunkKey 0 kw, List.map_map]
  refine List.map_congr_left ?_
  intro p hp
  show keyEntry (List.enumFrom 0 kw) (chunkKey p.2) = _
  rw [keyEntry, kwRankVal_self hk hp]

theorem kw_keyEntry_pairwise (sem kw : List SRes)
    (hk : (kw.map chunkKey).Nodup) :
    ((kw.map chunkKey).map (keyEntry (List.enumFrom 0 kw))).Pairwise
      (fun a b : String × ℚ => b.2 < a.2) := by
  rw [kw_keyEntry_clean sem kw hk]
  refine (pairwise_enumFrom_fst 0 kw).map _ ?_
  intro a b hab
  show 1 / (((60 : ℕ) : ℚ) + ((b.1 : ℚ) + 1)) <
    1 / (((60 : ℕ) : ℚ) + ((a.1 : ℚ) + 1))
  simp only [Nat.cast_ofNat]
  exact rrfVal_lt hab

/-- Sorting the canonical `alpha = 0` score entries puts the keyword
keys first, in keyword-rank order, followed by the semantic-only keys
(combined score 0) in semantic order. -/
theorem alpha_zero_sort (sem kw : List SRes)
    (hs : (sem.map chunkKey).Nodup) (hk : (kw.map chunkKey).Nodup) :
    sortDesc (fun q : String × ℚ => q.2) (((sem.map chunkKey) ++ ((kw.map chunkKey).filter (fun k => decide (k ∉ (sem.map chunkKey))))).map (keyEntry (List.enumFrom 0 kw))) =
      (kw.map chunkKey).map (keyEntry (List.enumFrom 0 kw)) ++ ((sem.map chunkKey).filter (fun k => decide (k ∉ (kw.map chunkKey)))).map (keyEntry (List.enumFrom 0 kw)) := by
  have hnonneg : ∀ a ∈ ((sem.map chunkKey) ++ ((kw.map chunkKey).filter (fun k => decide (k ∉ (sem.map chunkKey))))).map (keyEntry (List.enumFrom 0 kw)), (0 : ℚ) ≤ a.2 := by
    intro a ha
    rcases List.mem_map.mp ha with ⟨k, _, rfl⟩
    exact kwRankVal_nonneg _ k
  rw [sortDesc_split_at (fun q : String × ℚ => q.2) 0 (((sem.map chunkKey) ++ ((kw.map chunkKey).filter (fun k => decide (k ∉ (sem.map chunkKey))))).map (keyEntry (List.enumFrom 0 kw))) hnonneg]
  have hposfilter : (((sem.map chunkKey) ++ ((kw.map chunkKey).filter (fun k => decide (k ∉ (sem.map chunkKey))))).map (keyEntry (List.enumFrom 0 kw))).filter
      (fun a => decide ((0 : ℚ) < a.2)) =
      (((sem.map chunkKey).filter (fun k => decide (k ∈ (kw.map chunkKey)))) ++ ((kw.map chunkKey).filter (fun k => decide (k ∉ (sem.map chunkKey))))).map (keyEntry (List.enumFrom 0 kw)) := by
    rw [List.filter_map]
    have hpred : ∀ k ∈ ((sem.map chunkKey) ++ ((kw.map chunkKey).filter (fun k => decide (k ∉ (sem.map chunkKey))))),
        ((fun a : String × ℚ => decide ((0 : ℚ) < a.2)) ∘ (keyEntry (List.enumFrom 0 kw))) k =
        (fun k => decide (k ∈ (kw.map chunkKey))) k := by
      intro k _
      show decide (0 < kwRankVal (List.enumFrom 0 kw) k) = decide (k ∈ (kw.map chunkKey))
      exact decide_eq_decide.mpr (kwRankVal_pos_iff k)
    have hfr : ((kw.map chunkKey).filter (fun k => decide (k ∉ (sem.map chunkKey)))).filter (fun k => decide (k ∈ (kw.map chunkKey))) = ((kw.map chunkKey).filter (fun k => decide (k ∉ (sem.map chunkKey)))) := by
      refine List.filter_eq_self.mpr ?_
      intro k hkmem
      exact decide_eq_true (List.mem_of_mem_filter hkmem)
    rw [List.filter_congr hpred, List.filter_append, hfr]
  have hzerofilter : (((sem.map chunkKey) ++ ((kw.map chunkKey).filter (fun k => decide (k ∉ (sem.map chunkKey))))).map (keyEntry (List.enumFrom 0 kw))).filter
      (fun a => decide (a.2 ≤ (0 : ℚ))) = ((sem.map chunkKey).filter (fun k => decide (k ∉ (kw.map chunkKey)))).map (keyEntry (List.enumFrom 0 kw)) := by
    rw [List.filter_map]
    have hpred : ∀ k ∈ ((sem.map chunkKey) ++ ((kw.map chunkKey).filter (fun k => decide (k ∉ (sem.map chunkKey))))),
        ((fun a : String × ℚ => decide (a.2 ≤ (0 : ℚ))) ∘ (keyEntry (List.enumFrom 0 kw))) k =
        (fun k => decide (k ∉ (kw.map chunkKey))) k := by
      intro k _
      show decide (kwRankVal (List.enumFrom 0 kw) k ≤ 0) = decide (k ∉ (kw.map chunkKey))
      refine decide_eq_decide.mpr ?_
      rw [← kwRankVal_pos_iff k]
      exact not_lt.symm
    have hfr0 : ((kw.map chunkKey).filter (fun k => decide (k ∉ (sem.map chunkKey)))).filter (fun k => decide (k ∉ (kw.map chunkKey))) = [] := by
      refine List.filter_eq_nil_iff.mpr ?_
      intro k hkmem
      simp only [decide_eq_true_eq]
      intro hcon
      exact hcon (List.mem_of_mem_filter hkmem)
    rw [List.filter_congr hpred, List.filter_append, hfr0, List.append_nil]
  rw [hposfilter, hzerofilter]
  have hpermE : List.Perm ((((sem.map chunkKey).filter (fun k => decide (k ∈ (kw.map chunkKey)))) ++ ((kw.map chunkKey).filter (fun k => decide (k ∉ (sem.map chunkKey))))).map (keyEntry (List.enumFrom 0 kw))) ((kw.map chunkKey).map (keyEntry (List.enumFrom 0 kw))) :=
    (shared_fresh_perm_kw sem kw hs hk).map _
  have hstrict := kw_keyEntry_pairwise sem kw hk
  have hsymm : Symmetric (fun a b : String × ℚ => a.2 ≠ b.2) :=
    fun a b h => Ne.symm h
  have hne2 : ((kw.map chunkKey).map (keyEntry (List.enumFrom 0 kw))).Pairwise
      (fun a b : String × ℚ => a.2 ≠ b.2) :=
    hstrict.imp (fun h => ne_of_gt h)
  have hne : ((((sem.map chunkKey).filter (fun k => decide (k ∈ (kw.map chunkKey)))) ++ ((kw.map chunkKey).filter (fun k => decide (k ∉ (sem.map chunkKey))))).map (keyEntry (List.enumFrom 0 kw))).Pairwise
      (fun a b : String × ℚ => a.2 ≠ b.2) :=
    (hpermE.pairwise_iff @hsymm).mpr hne2
  rw [sortDesc_perm_congr (fun q : String × ℚ => q.2) hpermE hne]
  rw [sortDesc_eq_self _ (hstrict.imp (fun h => le_of_lt h))]

theorem d2_keys (sem kw : List SRes) :
    ((sem.map (fun r => (chunkKey r, r))) ++
      (kw.filter (fun r => !((sem.map (fun r => (chunkKey r, r))).any
        (fun q => decide (q.1 = chunkKey r))))).map (fun r => (chunkKey r, r))).map Prod.fst = (sem.map chunkKey) ++ ((kw.map chunkKey).filter (fun k => decide (k ∉ (sem.map chunkKey)))) := by
  rw [List.map_append, pairs_fst, pairs_fst]
  refine congrArg₂ (· ++ ·) rfl ?_
  rw [List.filter_congr (fun r _ => by
    rw [notAny_eq_decide_not_mem, pairs_fst] :
    ∀ r ∈ kw, (!((sem.map (fun r => (chunkKey r, r))).any (fun q => decide (q.1 = chunkKey r)))) =
      decide (chunkKey r ∉ (sem.map chunkKey)))]
  rw [List.filter_map]
  rfl

theorem d2_shape (sem kw : List SRes) :
    ∀ e ∈ ((sem.map (fun r => (chunkKey r, r))) ++
      (kw.filter (fun r => !((sem.map (fun r => (chunkKey r, r))).any
        (fun q => decide (q.1 = chunkKey r))))).map (fun r => (chunkKey r, r))), e.1 = chunkKey e.2 := by
  intro e he
  rcases List.mem_append.mp he with h | h
  · rcases List.mem_map.mp h with ⟨r, _, rfl⟩
    rfl
  · rcases List.mem_map.mp h with ⟨r, _, rfl⟩
    rfl

/-- With `alpha = 0` the fused output lists the keyword chunks in
keyword-rank order, followed by the semantic-only chunks (combined
score 0) in semantic order, identified by their keys. -/
theorem rrf_alpha_zero_keys (sem kw : List SRes)
    (hs : (sem.map chunkKey).Nodup) (hk : (kw.map chunkKey).Nodup) :
    (reciprocalRankFusion 0 sem kw 60).map (fun e => chunkKey e.1) =
      kw.map chunkKey ++
        (sem.filter (fun r => decide (chunkKey r ∉ kw.map chunkKey))).map
          chunkKey := by
  have h1 := rrfStep_fold_fresh 0 60 dataSet dataSet_fresh sem 0 [] [] hs
    (fun r _ => rfl) (fun r _ => rfl)
  simp only [List.nil_append] at h1
  have hS1keys := entries_fst 0 60 0 sem
  have hD1keys := pairs_fst sem
  have h2 := rrfStep_fold_update (1 - 0) 60 kw 0 ((List.enumFrom 0 sem).map
      (fun p => (chunkKey p.2,
        0 * (1 / (((60 : ℕ) : ℚ) + ((p.1 : ℚ) + 1)))))) (sem.map (fun r => (chunkKey r, r)))
    hk (by rw [hS1keys]; exact hs) (by rw [hS1keys, hD1keys])
  have hsd2 : (List.enumFrom 0 kw).foldl (rrfStep (1 - 0) 60 dataSetIfAbsent)
      (List.foldl (rrfStep 0 60 dataSet) ([], []) (List.enumFrom 0 sem)) =
      (((List.enumFrom 0 sem).map
      (fun p => (chunkKey p.2,
        0 * (1 / (((60 : ℕ) : ℚ) + ((p.1 : ℚ) + 1)))))).map (scoreUpd (1 - 0) 60 (List.enumFrom 0 kw)) ++ (((List.enumFrom 0 kw).filter
      (fun p => !(((List.enumFrom 0 sem).map
      (fun p => (chunkKey p.2,
        0 * (1 / (((60 : ℕ) : ℚ) + ((p.1 : ℚ) + 1)))))).any
        (fun q => decide (q.1 = chunkKey p.2))))).map
      (fun p => (chunkKey p.2,
        (1 - 0) * (1 / (((60 : ℕ) : ℚ) + ((p.1 : ℚ) + 1)))))), ((sem.map (fun r => (chunkKey r, r))) ++
      (kw.filter (fun r => !((sem.map (fun r => (chunkKey r, r))).any
        (fun q => decide (q.1 = chunkKey r))))).map (fun r => (chunkKey r, r)))) := by
    rw [h1]
    exact h2
  have hscores : ((List.enumFrom 0 sem).map
      (fun p => (chunkKey p.2,
        0 * (1 / (((60 : ℕ) : ℚ) + ((p.1 : ℚ) + 1)))))).map (scoreUpd (1 - 0) 60 (List.enumFrom 0 kw)) ++ (((List.enumFrom 0 kw).filter
      (fun p => !(((List.enumFrom 0 sem).map
      (fun p => (chunkKey p.2,
        0 * (1 / (((60 : ℕ) : ℚ) + ((p.1 : ℚ) + 1)))))).any
        (fun q => decide (q.1 = chunkKey p.2))))).map
      (fun p => (chunkKey p.2,
        (1 - 0) * (1 / (((60 : ℕ) : ℚ) + ((p.1 : ℚ) + 1)))))) =
      ((sem.map chunkKey) ++ ((kw.map chunkKey).filter (fun k => decide (k ∉ (sem.map chunkKey))))).map (keyEntry (List.enumFrom 0 kw)) := by
    rw [alpha_zero_shared_canon sem kw, alpha_zero_fresh_canon sem kw hk,
      List.map_append]
  have hfst : ((List.enumFrom 0 kw).foldl (rrfStep (1 - 0) 60 dataSetIfAbsent)
      (List.foldl (rrfStep 0 60 dataSet) ([], []) (List.enumFrom 0 sem))).1 =
      ((sem.map chunkKey) ++ ((kw.map chunkKey).filter (fun k => decide (k ∉ (sem.map chunkKey))))).map (keyEntry (List.enumFrom 0 kw)) := by
    rw [hsd2]
    exact hscores
  have hsnd : ((List.enumFrom 0 kw).foldl (rrfStep (1 - 0) 60 dataSetIfAbsent)
      (List.foldl (rrfStep 0 60 dataSet) ([], []) (List.enumFrom 0 sem))).2 =
      ((sem.map (fun r => (chunkKey r, r))) ++
      (kw.filter (fun r => !((sem.map (fun r => (chunkKey r, r))).any
        (fun q => decide (q.1 = chunkKey r))))).map (fun r => (chunkKey r, r))) := by
    rw [hsd2]
  have henum1 : sem.enum = List.enumFrom 0 sem := rfl
  have henum2 : kw.enum = List.enumFrom 0 kw := rfl
  have hfindall : ∀ q ∈ (kw.map chunkKey).map (keyEntry (List.enumFrom 0 kw)) ++ ((sem.map chunkKey).filter (fun k => decide (k ∉ (kw.map chunkKey)))).map (keyEntry (List.enumFrom 0 kw)),
      ∃ r, dataFind ((sem.map (fun r => (chunkKey r, r))) ++
      (kw.filter (fun r => !((sem.map (fun r => (chunkKey r, r))).any
        (fun q => decide (q.1 = chunkKey r))))).map (fun r => (chunkKey r, r))) q.1 = some r ∧ chunkKey r = q.1 := by
    intro q hq
    refine dataFind_of_shape (d2_shape sem kw) ?_
    rw [d2_keys sem kw]
    rcases List.mem_append.mp hq with hq1 | hq2
    · rcases List.mem_map.mp hq1 with ⟨k, hkmem, rfl⟩
      show k ∈ _
      by_cases hins : k ∈ (sem.map chunkKey)
      · exact List.mem_append.mpr (Or.inl hins)
      · exact List.mem_append.mpr (Or.inr
          (List.mem_filter.mpr ⟨hkmem, decide_eq_true hins⟩))
    · rcases List.mem_map.mp hq2 with ⟨k, hkmem, rfl⟩
      exact List.mem_append.mpr (Or.inl (List.mem_of_mem_filter hkmem))
  simp only [reciprocalRankFusion, henum1, henum2, hfst, hsnd]
  rw [alpha_zero_sort sem kw hs hk]
  rw [buildOut_foldl, List.nil_append]
  rw [buildOut_keys hfindall]
  rw [List.map_append, List.map_map, List.map_map, List.map_map]
  refine congrArg₂ (· ++ ·) rfl ?_
  have h3 : List.map (Prod.fst ∘ (keyEntry (List.enumFrom 0 kw))) =
      List.map (fun k : String => k) := rfl
  rw [h3, List.map_id', List.filter_map]
  rfl

theorem hybridSearch_take (alpha : ℚ) (sem kw : List SRes) (top_k : ℕ) :
    hybridSearch alpha sem kw top_k =
      (reciprocalRankFusion alpha sem kw 60).take top_k := by
  unfold hybridSearch
  by_cases h : (sem.isEmpty && kw.isEmpty) = true
  · rw [if_pos h]
    simp only [Bool.and_eq_true, List.isEmpty_iff] at h
    obtain ⟨h1, h2⟩ := h
    subst h1
    subst h2
    rw [show reciprocalRankFusion alpha [] [] 60 = [] from rfl, List.take_nil]
  · rw [if_neg h]

/-- C3: At the extreme mixing weights the fused ranking is NOT identical to
the single-ranker output in general; instead, with `alpha = 1` the output
payloads are the semantic results in order followed by the keyword-only
results (combined score 0) in keyword order, truncated to `top_k`, and with
`alpha = 0` the output keys are the keyword results in order followed by the
semantic-only keys, truncated to `top_k`.  The hypotheses require each
ranker's chunk keys to be duplicate-free, which the upstream search
routines guarantee. -/
theorem claim_C3_alpha_extremes (sem kw : List SRes) (top_k : ℕ)
    (hs : (sem.map chunkKey).Nodup) (hk : (kw.map chunkKey).Nodup) :
    (hybridSearch 1 sem kw top_k).map Prod.fst =
      (sem ++ kw.filter
        (fun r => decide (chunkKey r ∉ sem.map chunkKey))).take top_k ∧
    (hybridSearch 0 sem kw top_k).map (fun e => chunkKey e.1) =
      ((kw.map chunkKey) ++
        ((sem.filter (fun r => decide (chunkKey r ∉ kw.map chunkKey))).map
          chunkKey)).take top_k := by
  constructor
  · rw [hybridSearch_take, List.map_take, rrf_alpha_one_payloads sem kw hs hk]
  · rw [hybridSearch_take, List.map_take, rrf_alpha_zero_keys sem kw hs hk]

/-- Witness for C3 at a concrete pair of one-element rankings. -/
theorem claim_C3_alpha_extremes_witness :
    ((([⟨"a", 0, 1⟩] : List SRes).map chunkKey).Nodup ∧
      (([⟨"b", 0, 1⟩] : List SRes).map chunkKey).Nodup) ∧
    ((hybridSearch 1 [⟨"a", 0, 1⟩] [⟨"b", 0, 1⟩] 2).map Prod.fst =
      (([⟨"a", 0, 1⟩] : List SRes) ++ [⟨"b", 0, 1⟩].filter
        (fun r => decide
          (chunkKey r ∉ ([⟨"a", 0, 1⟩] : List SRes).map chunkKey))).take 2 ∧
    (hybridSearch 0 [⟨"a", 0, 1⟩] [⟨"b", 0, 1⟩] 2).map
        (fun e => chunkKey e.1) =
      ((([⟨"b", 0, 1⟩] : List SRes).map chunkKey) ++
        ((([⟨"a", 0, 1⟩] : List SRes).filter (fun r => decide
          (chunkKey r ∉ ([⟨"b", 0, 1⟩] : List SRes).map chunkKey))).map
          chunkKey)).take 2) :=
  ⟨⟨by decide, by decide⟩,
    claim_C3_alpha_extremes [⟨"a", 0, 1⟩] [⟨"b", 0, 1⟩] 2
      (by decide) (by decide)⟩

/-- Counterexample to the literal C3: with `alpha = 1`, an empty semantic
ranking and one keyword result, the fused output contains the keyword
document, while the semantic-only ranking is empty. -/
theorem claim_C3_counterexample :
    (hybridSearch 1 [] [⟨"d", 0, 0⟩] 1).map Prod.fst = [⟨"d", 0, 0⟩] ∧
    (([] : List SRes).take 1 = []) :=
  ⟨rfl, rfl⟩
